import Mathlib

/-!
# Verification of Sigil's FolderKeeper resource registry

A shallow embedding of the resource folder/registry manager of the Sigil
ebook editor (`src/BookManipulation/FolderKeeper.cpp`), together with proofs
and refutations of the specified properties.

Strings are modelled as `List Char` (the `.data` of a `String`); Qt's
case-insensitive comparisons are modelled by comparing `Char.toLower`-mapped
character lists (the inputs of interest are ASCII).  `QHash`/`QSet` are
modelled as insertion-ordered association lists; where Qt leaves iteration
order unspecified the model fixes insertion order.  Machine integers are
modelled by `Nat`/`Int` (no claim exercises overflow).
-/

set_option autoImplicit false

namespace FolderKeeper

/-- Lower-case every character (model of Qt's case-insensitive comparison). -/
def lowerC (l : List Char) : List Char := l.map Char.toLower

/-- `filenames.contains(filename, Qt::CaseInsensitive)` from
`FolderKeeper::GetUniqueFilenameVersion`. -/
def containsCI (names : List (List Char)) (c : List Char) : Prop :=
  ∃ f ∈ names, lowerC f = lowerC c

instance (names : List (List Char)) (c : List Char) : Decidable (containsCI names c) :=
  List.decidableBEx _ names

/-- `QFileInfo::baseName`: the file name up to (but not including) the first dot. -/
def baseNameOf (l : List Char) : List Char := l.takeWhile (fun c => c ≠ '.')

/-- `QFileInfo::completeSuffix`: everything after the first dot (empty if no dot). -/
def completeSuffixOf (l : List Char) : List Char := (l.dropWhile (fun c => c ≠ '.')).drop 1

/-- `QString::remove(QRegularExpression("\\d+$"))`: strip the trailing run of
decimal digits. -/
def stripTrailingDigits (l : List Char) : List Char :=
  (l.reverse.dropWhile Char.isDigit).reverse

/-- The `name_prefix` computed by `GetUniqueFilenameVersion`: the base name with
its trailing digits removed. -/
def namePfx (filename : List Char) : List Char := stripTrailingDigits (baseNameOf filename)

/-- The extension part appended to generated names:
`!extension.isEmpty() ? ("." + extension) : ""`. -/
def extPart (filename : List Char) : List Char :=
  if completeSuffixOf filename = [] then [] else '.' :: completeSuffixOf filename

/-- The case-insensitive anchored match of one existing file name against the
search pattern `^prefix(\d*)\.ext$` built by `GetUniqueFilenameVersion`
(`\.ext` absent when the extension is empty).  Returns the digit capture when
the name matches. -/
def matchNumericName (pfx ext f : List Char) : Option (List Char) :=
  let lf := lowerC f
  let lp := lowerC pfx
  let le := lowerC ext
  if lp <+: lf then
    let rest := lf.drop lp.length
    if le <:+ rest then
      let mid := rest.take (rest.length - le.length)
      if mid.all Char.isDigit then some mid else none
    else none
  else none

/-- `QString::toInt` on a digit capture (the captures fed to it are all-digit;
overflow is not modelled, no claim exercises it). -/
def digitsVal (l : List Char) : Nat := l.foldl (fun a c => a * 10 + (c.toNat - 48)) 0

/-- The scanning loop of `GetUniqueFilenameVersion`: fold over all existing
names, tracking `max_num` (as `Int`, starting at `-1`) and `max_num_length`.
A name contributes only when it matches the pattern, its digit capture is
non-empty (`toInt` succeeds) and its value is strictly larger than the
current maximum. -/
def scanNames (pfx ext : List Char) (names : List (List Char)) : Int × Nat :=
  names.foldl
    (fun acc f =>
      match matchNumericName pfx ext f with
      | some mid =>
          if mid ≠ [] ∧ (digitsVal mid : Int) > acc.1 then ((digitsVal mid : Int), mid.length)
          else acc
      | none => acc)
    (-1, 0)

/-- Fuel-based decimal printer (structural recursion so that the kernel can
evaluate it; the fuel `n + 1` always suffices). -/
def natToCharsAux : Nat → Nat → List Char → List Char
  | 0, _, acc => acc
  | fuel + 1, n, acc =>
    if n < 10 then Char.ofNat (48 + n) :: acc
    else natToCharsAux fuel (n / 10) (Char.ofNat (48 + n % 10) :: acc)

/-- Decimal representation of a natural number as characters. -/
def natToChars (n : Nat) : List Char := natToCharsAux (n + 1) n []

/-- `QString("%1").arg(n, w, 10, QChar('0'))`: decimal representation of `n`
left-padded with zeros to width `w` (never truncated). -/
def padNat (n w : Nat) : List Char :=
  let d := natToChars n
  List.replicate (w - d.length) '0' ++ d

/-- Core of `FolderKeeper::GetUniqueFilenameVersion` on character lists: if the
candidate name is absent (case-insensitively) it is returned unchanged;
otherwise the maximal numeric suffix among the matching existing names is
incremented and zero-padded to the recorded width (width 4 when no numeric
suffix was found). -/
def getUniqueFilenameVersionCore (filenames : List (List Char)) (filename : List Char) :
    List Char :=
  if containsCI filenames filename then
    let pfx := namePfx filename
    let ext := extPart filename
    let s := scanNames pfx ext filenames
    let mx : Nat := if s.1 = -1 then 0 else s.1.toNat
    let w : Nat := if s.1 = -1 then 4 else s.2
    pfx ++ padNat (mx + 1) w ++ ext
  else filename

/-- `FolderKeeper::GetUniqueFilenameVersion` (the spec's `MakeUnique`), with the
`GetAllFilenames()` snapshot passed explicitly. -/
def GetUniqueFilenameVersion (filename : String) (allFilenames : List String) : String :=
  ⟨getUniqueFilenameVersionCore (allFilenames.map String.data) filename.data⟩

/-- The maximal numeric suffix found by the scan (`0` when none was found). -/
def maxSuffixVal (filename : List Char) (names : List (List Char)) : Nat :=
  let s := scanNames (namePfx filename) (extPart filename) names
  if s.1 = -1 then 0 else s.1.toNat

/-- The digit width recorded for the maximal numeric suffix (`4` when no
numeric suffix was found). -/
def suffixWidth (filename : List Char) (names : List (List Char)) : Nat :=
  let s := scanNames (namePfx filename) (extPart filename) names
  if s.1 = -1 then 4 else s.2

/-- `QString::split('/')` (never returns an empty list; `""` splits to `[""]`). -/
def splitC : List Char → List (List Char)
  | [] => [[]]
  | c :: t =>
    if c = '/' then [] :: splitC t
    else
      match splitC t with
      | [] => [[c]]
      | h :: r => (c :: h) :: r

/-- `QStringList::join('/')`. -/
def joinC : List (List Char) → List Char
  | [] => []
  | [s] => s
  | s :: t => s ++ '/' :: joinC t

/-- `Resource::Filename` / `QFileInfo::fileName`: the component after the last
`/` of a path. -/
def filenameOf (path : String) : String := ⟨(splitC path.data).getLastD []⟩

/-- `QFileInfo::suffix`: the part of the file name after the last dot (empty
when the name has no dot). -/
def suffixOf (l : List Char) : List Char :=
  let r := l.reverse.takeWhile (fun c => c ≠ '.')
  if r.length = l.length then [] else r.reverse

/-- The typed exceptions of `sigil_exception.h` that FolderKeeper throws. -/
inductive SigilError where
  | fileDoesNotExist (path : String)
  | resourceDoesNotExist (bookpath : String)
  deriving DecidableEq

/-- The registry state: `m_Resources` (identifier → resource) and
`m_Path2Resource` (book path → resource).  A resource is represented by its
stable identifier together with its current book path; the presentation-only
fields (icons, epub version, media type, payload object) are not modelled. -/
structure RegState where
  resMap : List (Nat × String)
  pathIdx : List (String × Nat)
  deriving DecidableEq

/-- Association-list lookup (model of `QHash::value`). -/
def alookup {α β : Type} [DecidableEq α] : List (α × β) → α → Option β
  | [], _ => none
  | (k, v) :: t, a => if k = a then some v else alookup t a

/-- Association-list removal (model of `QHash::remove`). -/
def aremove {α β : Type} [DecidableEq α] : List (α × β) → α → List (α × β)
  | [], _ => []
  | (k, v) :: t, a => if k = a then t else (k, v) :: aremove t a

/-- Association-list insert-or-replace (model of `QHash::operator[] =`). -/
def ainsert {α β : Type} [DecidableEq α] (l : List (α × β)) (a : α) (b : β) : List (α × β) :=
  match l with
  | [] => [(a, b)]
  | (k, v) :: t => if k = a then (a, b) :: t else (k, v) :: ainsert t a b

/-- Modelled from the spec: the `MediaTypes` singleton (`Misc/MediaTypes.cpp`)
is not among the supplied sources; §4.1/§6 describe it as a static read-only
extension → media-type table.  A representative table for the standard EPUB
file types. -/
def extensionMediaTypes : List (String × String) :=
  [("xhtml", "application/xhtml+xml"), ("html", "application/xhtml+xml"),
   ("htm", "application/xhtml+xml"), ("css", "text/css"),
   ("png", "image/png"), ("jpg", "image/jpeg"), ("jpeg", "image/jpeg"),
   ("gif", "image/gif"), ("svg", "image/svg+xml"),
   ("ttf", "application/x-font-ttf"), ("otf", "application/x-font-opentype"),
   ("woff", "application/font-woff"), ("mp3", "audio/mpeg"), ("mp4", "video/mp4"),
   ("pdf", "application/pdf"), ("js", "application/javascript"),
   ("xml", "application/xml"), ("ncx", "application/x-dtbncx+xml"),
   ("opf", "application/oebps-package+xml")]

/-- Modelled from the spec: `MediaTypes::GetMediaTypeFromExtension`. -/
def mediaTypeFromExtension (ext fallback : String) : String :=
  match alookup extensionMediaTypes ext with
  | some mt => mt
  | none => fallback

/-- Modelled from the spec: the media-type → semantic-group table of
`MediaTypes::GetGroupFromMediaType` (groups per §2/§4.1). -/
def mediaTypeGroups : List (String × String) :=
  [("application/xhtml+xml", "Text"), ("text/css", "Styles"),
   ("image/png", "Images"), ("image/jpeg", "Images"), ("image/gif", "Images"),
   ("image/svg+xml", "Images"),
   ("application/x-font-ttf", "Fonts"), ("application/x-font-opentype", "Fonts"),
   ("application/font-woff", "Fonts"),
   ("audio/mpeg", "Audio"), ("video/mp4", "Video"),
   ("application/pdf", "Misc"), ("application/javascript", "Misc"),
   ("application/xml", "Misc"),
   ("application/x-dtbncx+xml", "ncx"), ("application/oebps-package+xml", "opf")]

/-- Modelled from the spec: `MediaTypes::GetGroupFromMediaType`. -/
def groupFromMediaType (mt fallback : String) : String :=
  match alookup mediaTypeGroups mt with
  | some g => g
  | none => fallback

/-- `FolderKeeper::DetermineFileGroup`: files under the reserved `META-INF`
directory are `"other"`; otherwise the declared media type is used when it
maps to a group, the extension-derived media type is tried next, and `"Misc"`
is the final fallback. -/
def DetermineFileGroup (filepath mimetype : String) : String :=
  let extension : String := ⟨lowerC (suffixOf (filenameOf filepath).data)⟩
  if "META-INF".data <:+: filepath.data then "other"
  else if mimetype = "" ∧ mediaTypeFromExtension extension "" = "" then "Misc"
  else
    let mt := if mimetype = "" then mediaTypeFromExtension extension "" else mimetype
    let group := groupFromMediaType mt ""
    let group2 :=
      if group = "" then
        let mt2 := mediaTypeFromExtension extension ""
        if mt2 ≠ "" then groupFromMediaType mt2 "" else ""
      else group
    if group2 = "" then "Misc" else group2

/-- `FolderKeeper::CreateGroupToFoldersMap` (the freshly constructed
`m_GrpToFold`; no path ends in `/`). -/
def defaultGroupFolders : List (String × List String) :=
  [("Text", ["OEBPS/Text"]), ("Styles", ["OEBPS/Styles"]), ("Images", ["OEBPS/Images"]),
   ("Fonts", ["OEBPS/Fonts"]), ("Audio", ["OEBPS/Audio"]), ("Video", ["OEBPS/Video"]),
   ("Misc", ["OEBPS/Misc"]), ("ncx", ["OEBPS"]), ("opf", ["OEBPS"]), ("other", [""])]

/-- `FolderKeeper::GetFoldersForGroup`. -/
def GetFoldersForGroup (grpMap : List (String × List String)) (group : String) : List String :=
  match alookup grpMap group with
  | some fs => fs
  | none => [""]

/-- `FolderKeeper::GetDefaultFolderForGroup` (first folder of the group). -/
def GetDefaultFolderForGroup (grpMap : List (String × List String)) (group : String) : String :=
  (GetFoldersForGroup grpMap group).headD ""

/-- `FolderKeeper::GetAllFilenames`: the file names of all registered
resources. -/
def GetAllFilenames (st : RegState) : List String :=
  st.resMap.map (fun r => filenameOf r.2)

/-- The media-type validation of `AddContentFileToFolder`: a declared type not
mapping to a known group is discarded; an empty (or discarded) type is
re-derived from the lower-cased file extension. -/
def resolvedMediaType (fullfilepath mimetype : String) : String :=
  let filename := filenameOf fullfilepath
  let mt0 := if mimetype ≠ "" ∧ groupFromMediaType mimetype "" = "" then "" else mimetype
  if mt0 = "" then mediaTypeFromExtension ⟨lowerC (suffixOf filename.data)⟩ mimetype
  else mt0

/-- The dot-stripped file name `AddContentFileToFolder` feeds to
`GetUniqueFilenameVersion` (`if (filename.startsWith('.')) filename.remove(0,1)`). -/
def strippedName (fullfilepath : String) : String :=
  let filename := filenameOf fullfilepath
  if filename.data.head? = some '.' then ⟨filename.data.drop 1⟩ else filename

/-- The unique file name the mutex section of `AddContentFileToFolder`
computes against the `GetAllFilenames()` snapshot. -/
def autoUniqueName (st : RegState) (fullfilepath : String) : String :=
  GetUniqueFilenameVersion (strippedName fullfilepath) (GetAllFilenames st)

/-- The destination folder of `AddContentFileToFolder`: the group's default
folder when no folder was dictated (`folderpath == "\\"`). -/
def folderToUse (fullfilepath mimetype folderpath : String) : String :=
  if folderpath = "\\" then
    GetDefaultFolderForGroup defaultGroupFolders
      (DetermineFileGroup fullfilepath (resolvedMediaType fullfilepath mimetype))
  else folderpath

/-- The book path `AddContentFileToFolder` registers: the caller-supplied
`bookpath` when nonempty, the `META-INF`-relative source path for reserved
files, and otherwise the destination folder joined with the computed unique
file name. -/
def chosenBookPath (mainFolder : String) (st : RegState)
    (fullfilepath mimetype bookpath folderpath : String) : String :=
  if bookpath ≠ "" then bookpath
  else if "META-INF".data <:+: fullfilepath.data then
    ⟨fullfilepath.data.drop (mainFolder.data.length + 1)⟩
  else if folderToUse fullfilepath mimetype folderpath ≠ "" then
    folderToUse fullfilepath mimetype folderpath ++ "/" ++ autoUniqueName st fullfilepath
  else autoUniqueName st fullfilepath

/-- `FolderKeeper::AddContentFileToFolder`.  The on-disk filesystem is
abstracted as the list `fs` of existing source paths, `mainFolder` is
`m_FullPathToMainFolder` (which never ends in `/`), and `newId` is the fresh
`QUuid` identifier of the created resource.  The registry-visible effects are
modelled: the `FileDoesNotExist` guard, media-type validation, the
mutex-guarded unique-name/book-path computation (factored into
`chosenBookPath` above) and the insertion into both indexes.  The physical
copy, permission bits, icon cache, thread affinity and signal wiring have no
registry-visible effect and are not modelled; the resource-subtype dispatch
on `resdesc` selects a payload class only. -/
def AddContentFileToFolder (fs : List String) (mainFolder : String) (st : RegState)
    (newId : Nat) (fullfilepath : String) (updateOpf : Bool) (mimetype : String)
    (bookpath : String) (folderpath : String) :
    Except SigilError (RegState × Nat) :=
  if fullfilepath ∈ fs then
    let bookPath := chosenBookPath mainFolder st fullfilepath mimetype bookpath folderpath
    .ok ({ resMap := st.resMap ++ [(newId, bookPath)],
           pathIdx := ainsert st.pathIdx bookPath newId }, newId)
  else .error (.fileDoesNotExist fullfilepath)

/-- `FolderKeeper::GetResourceByIdentifier`: `m_Resources[identifier]` yields
the default-constructed null pointer (`none`) for an unregistered identifier;
it never throws. -/
def GetResourceByIdentifier (st : RegState) (identifier : Nat) : Option (Nat × String) :=
  match alookup st.resMap identifier with
  | some bp => some (identifier, bp)
  | none => none

/-- `FolderKeeper::GetResourceByBookPath`: throws `ResourceDoesNotExist` when
the book path is unoccupied. -/
def GetResourceByBookPath (st : RegState) (bookpath : String) :
    Except SigilError (Nat × String) :=
  match alookup st.pathIdx bookpath with
  | some rid => .ok (rid, bookpath)
  | none => .error (.resourceDoesNotExist bookpath)

/-- `FolderKeeper::GetResourceByBookPathNoThrow`. -/
def GetResourceByBookPathNoThrow (st : RegState) (bookpath : String) : Option (Nat × String) :=
  match alookup st.pathIdx bookpath with
  | some rid => some (rid, bookpath)
  | none => none

/-- The book path produced by `Resource::RenameTo`: same folder, new file name
(`QFileInfo(old).absolutePath() + "/" + new_filename`). -/
def renamedPath (oldpath newname : String) : String :=
  ⟨joinC ((splitC oldpath.data).dropLast ++ [newname.data])⟩

/-- Modelled from the spec: `Resource::RenameTo` is not among the supplied
sources.  Per §4.2/§8 an individual rename in a batch may be rejected; the
rejection the registry can observe is the filesystem refusing to rename onto
an already existing file, so success is modelled as "the destination book
path is not currently occupied by any registered resource".  On success the
resource's own book path is updated in place. -/
def renameTo (st : RegState) (rid : Nat) (newname : String) : Bool × RegState :=
  match alookup st.resMap rid with
  | none => (false, st)
  | some oldbp =>
    let newbp := renamedPath oldbp newname
    if ∃ r ∈ st.resMap, r.2 = newbp then (false, st)
    else (true, { st with resMap := ainsert st.resMap rid newbp })

/-- The loop body of `FolderKeeper::BulkRenameResources`: read the resource's
old book path, call `RenameTo`, and on success remove the old book path from
the path index and insert the new one; a rejected rename leaves both maps
untouched for that resource. -/
def renameStep (s : RegState) (pr : Nat × String) : RegState :=
  match alookup s.resMap pr.1 with
  | none => s
  | some oldbp =>
    let r := renameTo s pr.1 pr.2
    if r.1 then
      { resMap := r.2.resMap,
        pathIdx := ainsert (aremove s.pathIdx oldbp) (renamedPath oldbp pr.2) pr.1 }
    else s

/-- `FolderKeeper::BulkRenameResources`: rename each listed resource in turn
with its new name.  The batched OPF notification and the final
`updateShortPathNames` refresh do not touch the two indexes and are modelled
separately. -/
def BulkRenameResources (st : RegState) (resources : List Nat) (newnames : List String) :
    RegState :=
  (List.zip resources newnames).foldl renameStep st

/-- Coherence of the two registry indexes: identifiers are unique, book paths
are unique, path-index keys are unique, and the path index holds exactly the
(book path → resource) mirror of the resource map. -/
def Consistent (st : RegState) : Prop :=
  (st.resMap.map Prod.fst).Nodup ∧
  (st.resMap.map Prod.snd).Nodup ∧
  (st.pathIdx.map Prod.fst).Nodup ∧
  (∀ r p, (r, p) ∈ st.resMap ↔ (p, r) ∈ st.pathIdx)

/-- One registry-mutating FolderKeeper call, as observed through the two
indexes.  `addAuto` is `AddContentFileToFolder` with no caller-chosen book
path on a source outside `META-INF` (the book path is then built from the
mutex-protected unique file name).  `addExplicit` and `addMeta` are the calls
in which the caller dictates the book path — an explicit `book_path` argument,
or the `META-INF`-relative source path — under the documented caller
obligation that the dictated path is not yet registered (the function itself
performs no collision check for these).  `bulkRename` is
`BulkRenameResources`. -/
inductive Step : RegState → RegState → Prop where
  | addAuto (fs : List String) (mainFolder : String) (st st' : RegState)
      (newId rid : Nat) (fullfilepath : String) (updateOpf : Bool)
      (mimetype folderpath : String)
      (hmeta : ¬ ("META-INF".data <:+: fullfilepath.data))
      (hok : AddContentFileToFolder fs mainFolder st newId fullfilepath updateOpf
        mimetype "" folderpath = .ok (st', rid)) :
      Step st st'
  | addExplicit (fs : List String) (mainFolder : String) (st st' : RegState)
      (newId rid : Nat) (fullfilepath : String) (updateOpf : Bool)
      (mimetype bookpath folderpath : String)
      (hbp : bookpath ≠ "")
      (hfresh : ∀ r ∈ st.resMap, r.2 ≠ bookpath)
      (hok : AddContentFileToFolder fs mainFolder st newId fullfilepath updateOpf
        mimetype bookpath folderpath = .ok (st', rid)) :
      Step st st'
  | addMeta (fs : List String) (mainFolder : String) (st st' : RegState)
      (newId rid : Nat) (fullfilepath : String) (updateOpf : Bool)
      (mimetype folderpath : String)
      (hmeta : "META-INF".data <:+: fullfilepath.data)
      (hfresh : ∀ r ∈ st.resMap,
        r.2 ≠ ⟨fullfilepath.data.drop (mainFolder.data.length + 1)⟩)
      (hok : AddContentFileToFolder fs mainFolder st newId fullfilepath updateOpf
        mimetype "" folderpath = .ok (st', rid)) :
      Step st st'
  | bulkRename (st : RegState) (resources : List Nat) (newnames : List String) :
      Step st (BulkRenameResources st resources newnames)

/-- Registry states reachable from the freshly constructed (empty) registry
through the modelled API calls. -/
inductive Reachable : RegState → Prop where
  | init : Reachable ⟨[], []⟩
  | step {st st' : RegState} : Reachable st → Step st st' → Reachable st'

/-- The file-name component of a book path, on character lists. -/
def fileNameC (bp : List Char) : List Char := (splitC bp).getLastD []

/-- `FolderKeeper::buildShortName`: level 1 is the bare file name; a level at
least the number of segments marks the whole book path with a leading `^`;
otherwise the last `lvl` segments joined with `/`. -/
def buildShortName (bookpath : List Char) (lvl : Nat) : List Char :=
  let pieces := splitC bookpath
  if lvl = 1 then pieces.getLastD []
  else if pieces.length ≤ lvl then '^' :: bookpath
  else joinC (pieces.drop (pieces.length - lvl))

/-- The loop state of `FolderKeeper::updateShortPathNames`: `BookToSPN`
(book path → current short name), `NameToBooks` (short name → paths holding
it) and the `DupSet` of names found duplicated, as insertion-ordered lists. -/
structure SPNState where
  bts : List (List Char × List Char)
  ntb : List (List Char × List (List Char))
  dup : List (List Char)

/-- `QSet::insert` on the duplicate set (insertion-ordered). -/
def dupInsert (d : List (List Char)) (n : List Char) : List (List Char) :=
  if n ∈ d then d else d ++ [n]

/-- The per-path body shared by the initialisation pass and the while loop of
`updateShortPathNames`: record the freshly built short name in `BookToSPN`,
then file the path under that name in `NameToBooks` — appending and marking a
duplicate when the name is already present. -/
def processPath (lvl : Nat) (st : SPNState) (bkpath : List Char) : SPNState :=
  let aname := buildShortName bkpath lvl
  let bts := ainsert st.bts bkpath aname
  match alookup st.ntb aname with
  | some lst =>
      { bts := bts, ntb := ainsert st.ntb aname (lst ++ [bkpath]),
        dup := dupInsert st.dup aname }
  | none => { bts := bts, ntb := ainsert st.ntb aname [bkpath], dup := st.dup }

/-- One duplicated name inside a round: fetch and remove the group's path list
and recompute each member at the current level. -/
def processGroup (lvl : Nat) (st : SPNState) (aname : List Char) : SPNState :=
  let bklst := (alookup st.ntb aname).getD []
  let st2 : SPNState := { st with ntb := aremove st.ntb aname }
  bklst.foldl (processPath lvl) st2

/-- One iteration of the while loop of `updateShortPathNames`: clear the
duplicate set, bump the level, reprocess every duplicated name. -/
def processRound (lvl : Nat) (todo : List (List Char)) (st : SPNState) : SPNState :=
  todo.foldl (processGroup lvl) { st with dup := [] }

/-- The while loop of `updateShortPathNames`, fuelled: returns the reached
state together with the still-pending duplicate list (empty iff the loop has
finished within `fuel` iterations). -/
def runRounds : Nat → Nat → List (List Char) → SPNState → SPNState × List (List Char)
  | _, _, [], st => (st, [])
  | 0, _, todo, st => (st, todo)
  | fuel + 1, lvl, todo, st =>
      let st2 := processRound (lvl + 1) todo st
      runRounds fuel (lvl + 1) st2.dup st2

/-- The initialisation pass of `updateShortPathNames` (level 1, bare file
names). -/
def initSPN (bookpaths : List (List Char)) : SPNState :=
  bookpaths.foldl (processPath 1) ⟨[], [], []⟩

/-- The maximum number of path segments over a set of book paths. -/
def maxDepth (bookpaths : List (List Char)) : Nat :=
  bookpaths.foldl (fun m bp => max m (splitC bp).length) 0

/-- The final marker strip of `updateShortPathNames`:
`if (shortname.startsWith('^')) shortname = shortname.remove(0, 1)`. -/
def stripMarker : List Char → List Char
  | '^' :: t => t
  | l => l

/-- `FolderKeeper::updateShortPathNames` as a function from the book-path list
to the per-path short display names (the values passed to
`SetShortPathName`), in input order.  The C++ while loop runs until no
duplicates remain; the model supplies `maxDepth + length + 1` rounds of fuel
and returns the assignment then reached. -/
def computeShortNames (bookpaths : List (List Char)) : List (List Char × List Char) :=
  let st0 := initSPN bookpaths
  let r := runRounds (maxDepth bookpaths + bookpaths.length + 1) 1 st0.dup st0
  bookpaths.map (fun bp => (bp, stripMarker ((alookup r.1.bts bp).getD [])))

/-- Whether the while loop of `updateShortPathNames` reaches the empty
duplicate list within `fuel` iterations. -/
def terminatesIn (bookpaths : List (List Char)) (fuel : Nat) : Bool :=
  let st0 := initSPN bookpaths
  (runRounds fuel 1 st0.dup st0).2.isEmpty

/-- A book path none of whose segments begins with the reserved marker
character `^` used by `buildShortName` for whole-path names. -/
def MarkerFree (bp : List Char) : Prop :=
  ∀ seg ∈ splitC bp, seg.head? ≠ some '^'

instance (bp : List Char) : Decidable (MarkerFree bp) :=
  inferInstanceAs (Decidable (∀ seg ∈ splitC bp, seg.head? ≠ some '^'))

/-- All paths currently filed in `NameToBooks`, with multiplicity. -/
def AllMembers (st : SPNState) : List (List Char) :=
  (st.ntb.map Prod.snd).flatten

/-- Mid-round invariant of the `updateShortPathNames` loop over the path set
`P`, at level `lvl`, with `A` the paths removed from `NameToBooks` but not yet
reprocessed: keys are unique; the filed paths together with the pending ones
are exactly `P`; entry lists are nonempty; a `^`-marked key is the whole-path
name of exactly its own path; an unmarked key either predates this round
(fewer than `lvl - 1` separators) or was built this round as a trailing
`lvl`-segment name of paths deeper than `lvl`; and every name in the duplicate
set witnesses a path deeper than `lvl`. -/
def MInv (P : List (List Char)) (lvl : Nat) (A : List (List Char)) (st : SPNState) : Prop :=
  (st.ntb.map Prod.fst).Nodup ∧
  (AllMembers st ++ A).Perm P ∧
  (∀ pr ∈ st.ntb, pr.2 ≠ []) ∧
  (∀ pr ∈ st.ntb, pr.1.head? = some '^' → ∃ bp, pr.1 = '^' :: bp ∧ pr.2 = [bp]) ∧
  (∀ pr ∈ st.ntb, pr.1.head? ≠ some '^' →
    pr.1.count '/' + 1 < lvl ∨
    (pr.1.count '/' + 1 = lvl ∧ ∀ bp ∈ pr.2, lvl < (splitC bp).length)) ∧
  (∀ n ∈ st.dup, ∃ bp ∈ P, lvl < (splitC bp).length)

/-- Between-rounds invariant of the `updateShortPathNames` loop: as `MInv`
but with no pending paths and every unmarked key of at most `lvl - 1`
separators. -/
def BInv (P : List (List Char)) (lvl : Nat) (st : SPNState) : Prop :=
  (st.ntb.map Prod.fst).Nodup ∧
  (AllMembers st).Perm P ∧
  (∀ pr ∈ st.ntb, pr.2 ≠ []) ∧
  (∀ pr ∈ st.ntb, pr.1.head? = some '^' → ∃ bp, pr.1 = '^' :: bp ∧ pr.2 = [bp]) ∧
  (∀ pr ∈ st.ntb, pr.1.head? ≠ some '^' → pr.1.count '/' + 1 ≤ lvl) ∧
  (∀ n ∈ st.dup, ∃ bp ∈ P, lvl < (splitC bp).length)

/-- Protection invariant for one path `p` whose file name `fn` is never
duplicated: `p` still holds short name `fn`, is filed exactly under `fn`
(alone), and `fn` is not scheduled for widening. -/
def Pinv (p fn : List Char) (st : SPNState) : Prop :=
  alookup st.bts p = some fn ∧
  alookup st.ntb fn = some [p] ∧
  (∀ pr ∈ st.ntb, pr.1 ≠ fn → p ∉ pr.2) ∧
  fn ∉ st.dup

/-- State of the initialisation pass before the protected path `p` (with file
name `fn`) has itself been processed: `fn` is not yet a key, `p` is nowhere
filed, `fn` is not marked duplicate. -/
def PreInv (p fn : List Char) (st : SPNState) : Prop :=
  alookup st.ntb fn = none ∧
  (∀ pr ∈ st.ntb, p ∉ pr.2) ∧
  fn ∉ st.dup

/-- Invariant of the level-1 initialisation pass of `updateShortPathNames`
over the path set `P`, with `A` the paths still to be processed: keys are the
file names of the filed paths (no markers, no separators), the filed and
pending paths are exactly `P`, and every duplicate found witnesses a path of
depth at least two. -/
def IInv (P A : List (List Char)) (st : SPNState) : Prop :=
  (st.ntb.map Prod.fst).Nodup ∧
  (AllMembers st ++ A).Perm P ∧
  (∀ pr ∈ st.ntb, pr.2 ≠ []) ∧
  (∀ pr ∈ st.ntb, pr.1.head? ≠ some '^' ∧ pr.1.count '/' = 0) ∧
  (∀ pr ∈ st.ntb, ∀ bp ∈ pr.2, fileNameC bp = pr.1) ∧
  (∀ n ∈ st.dup, ∃ bp ∈ P, 1 < (splitC bp).length)

/-- The scan step used in `scanNames`. -/
def scanStep (pfx ext : List Char) (acc : Int × Nat) (f : List Char) : Int × Nat :=
  match matchNumericName pfx ext f with
  | some mid =>
      if mid ≠ [] ∧ (digitsVal mid : Int) > acc.1 then ((digitsVal mid : Int), mid.length)
      else acc
  | none => acc

theorem natToCharsAux_acc (fuel : Nat) :
    ∀ (n : Nat) (acc : List Char),
      natToCharsAux fuel n acc = natToCharsAux fuel n [] ++ acc := by
  induction fuel with
  | zero => intro n acc; rfl
  | succ fuel ih =>
    intro n acc
    by_cases h : n < 10
    · simp [natToCharsAux, h]
    · simp only [natToCharsAux, if_neg h]
      rw [ih (n / 10) (Char.ofNat (48 + n % 10) :: acc),
          ih (n / 10) [Char.ofNat (48 + n % 10)]]
      simp

theorem natToCharsAux_fuel (n : Nat) :
    ∀ (f g : Nat) (acc : List Char), n < f → n < g →
      natToCharsAux f n acc = natToCharsAux g n acc := by
  induction n using Nat.strong_induction_on with
  | _ n ih =>
    intro f g acc hf hg
    match f, g with
    | f + 1, g + 1 =>
      by_cases h : n < 10
      · simp [natToCharsAux, h]
      · simp only [natToCharsAux, if_neg h]
        have hdiv : n / 10 < n := Nat.div_lt_self (by omega) (by omega)
        exact ih (n / 10) hdiv f g _ (by omega) (by omega)

/-- The defining equation of `natToChars`, fuel eliminated. -/
theorem natToChars_eq (n : Nat) :
    natToChars n =
      if n < 10 then [Char.ofNat (48 + n)]
      else natToChars (n / 10) ++ [Char.ofNat (48 + n % 10)] := by
  by_cases h : n < 10
  · simp [natToChars, natToCharsAux, h]
  · have hdiv : n / 10 < n := Nat.div_lt_self (by omega) (by omega)
    rw [if_neg h]
    have step : natToCharsAux (n + 1) n [] =
        natToCharsAux n (n / 10) [Char.ofNat (48 + n % 10)] := by
      rw [natToCharsAux, if_neg h]
    rw [natToChars, step, natToCharsAux_acc,
      natToCharsAux_fuel (n / 10) n (n / 10 + 1) [] (by omega) (by omega)]
    rfl

theorem natToChars_ne_nil (n : Nat) : natToChars n ≠ [] := by
  rw [natToChars_eq]
  by_cases h : n < 10 <;> simp [h]

theorem natToChars_shape (n : Nat) :
    ∀ c ∈ natToChars n, ∃ k, k < 10 ∧ c = Char.ofNat (48 + k) := by
  induction n using Nat.strong_induction_on with
  | _ n ih =>
    intro c hc
    rw [natToChars_eq] at hc
    by_cases h : n < 10
    · rw [if_pos h] at hc
      simp only [List.mem_singleton] at hc
      exact ⟨n, h, hc⟩
    · rw [if_neg h] at hc
      rcases List.mem_append.mp hc with h1 | h2
      · exact ih (n / 10) (Nat.div_lt_self (by omega) (by omega)) c h1
      · simp only [List.mem_singleton] at h2
        exact ⟨n % 10, Nat.mod_lt _ (by omega), h2⟩

theorem digit_char_isDigit : ∀ k, k < 10 → (Char.ofNat (48 + k)).isDigit = true := by decide

theorem digit_char_toLower : ∀ k, k < 10 → (Char.ofNat (48 + k)).toLower = Char.ofNat (48 + k) := by
  decide

theorem digit_char_toNat : ∀ k, k < 10 → (Char.ofNat (48 + k)).toNat = 48 + k := by decide

theorem digitsVal_append_singleton (l : List Char) (c : Char) :
    digitsVal (l ++ [c]) = digitsVal l * 10 + (c.toNat - 48) := by
  simp [digitsVal, List.foldl_append]

theorem digitsVal_natToChars (n : Nat) : digitsVal (natToChars n) = n := by
  induction n using Nat.strong_induction_on with
  | _ n ih =>
    rw [natToChars_eq]
    by_cases h : n < 10
    · rw [if_pos h]
      simp [digitsVal, digit_char_toNat n h]
    · rw [if_neg h, digitsVal_append_singleton,
        ih (n / 10) (Nat.div_lt_self (by omega) (by omega)),
        digit_char_toNat (n % 10) (Nat.mod_lt _ (by omega))]
      omega

theorem foldl_digits_zero (k : Nat) :
    List.foldl (fun a c => a * 10 + (c.toNat - 48)) 0 (List.replicate k '0') = 0 := by
  induction k with
  | zero => rfl
  | succ k ih => simpa [List.replicate_succ] using ih

theorem digitsVal_padNat (n w : Nat) : digitsVal (padNat n w) = n := by
  simp only [padNat, digitsVal, List.foldl_append, foldl_digits_zero]
  exact digitsVal_natToChars n

theorem padNat_ne_nil (n w : Nat) : padNat n w ≠ [] := by
  simp only [padNat, ne_eq, List.append_eq_nil, not_and]
  intro _; exact natToChars_ne_nil n

theorem padNat_all_digit (n w : Nat) : (padNat n w).all Char.isDigit = true := by
  rw [List.all_eq_true]
  intro c hc
  rcases List.mem_append.mp hc with h1 | h2
  · rw [List.eq_of_mem_replicate h1]; decide
  · obtain ⟨k, hk, rfl⟩ := natToChars_shape n c h2
    exact digit_char_isDigit k hk

theorem lowerC_padNat (n w : Nat) : lowerC (padNat n w) = padNat n w := by
  simp only [lowerC, padNat, List.map_append, List.map_replicate]
  have h0 : Char.toLower '0' = '0' := by decide
  rw [h0]
  have hmap : List.map Char.toLower (natToChars n) = List.map id (natToChars n) :=
    List.map_congr_left (fun c hc => by
      obtain ⟨k, hk, rfl⟩ := natToChars_shape n c hc
      exact digit_char_toLower k hk)
  rw [hmap, List.map_id]

theorem lowerC_append (l₁ l₂ : List Char) : lowerC (l₁ ++ l₂) = lowerC l₁ ++ lowerC l₂ :=
  List.map_append _ l₁ l₂

theorem scanNames_eq_foldl (pfx ext : List Char) (names : List (List Char)) :
    scanNames pfx ext names = names.foldl (scanStep pfx ext) (-1, 0) := rfl

theorem scanStep_fst_le (pfx ext : List Char) (acc : Int × Nat) (f : List Char) :
    acc.1 ≤ (scanStep pfx ext acc f).1 := by
  unfold scanStep
  cases matchNumericName pfx ext f with
  | none => exact le_refl _
  | some mid =>
    by_cases h : mid ≠ [] ∧ (digitsVal mid : Int) > acc.1
    · simp only [if_pos h]; exact le_of_lt h.2
    · simp only [if_neg h]; exact le_refl _

theorem scan_foldl_fst_le (pfx ext : List Char) (names : List (List Char)) :
    ∀ acc : Int × Nat, acc.1 ≤ (names.foldl (scanStep pfx ext) acc).1 := by
  induction names with
  | nil => intro acc; exact le_refl _
  | cons f rest ih =>
    intro acc
    exact le_trans (scanStep_fst_le pfx ext acc f) (ih (scanStep pfx ext acc f))

theorem scan_foldl_records (pfx ext : List Char) (names : List (List Char)) :
    ∀ (acc : Int × Nat) (f : List Char) (mid : List Char), f ∈ names →
      matchNumericName pfx ext f = some mid → mid ≠ [] →
      (digitsVal mid : Int) ≤ (names.foldl (scanStep pfx ext) acc).1 := by
  induction names with
  | nil => intro acc f mid h; exact absurd h (List.not_mem_nil f)
  | cons g rest ih =>
    intro acc f mid hmem hmatch hne
    rcases List.mem_cons.mp hmem with rfl | hrest
    · refine le_trans ?_ (scan_foldl_fst_le pfx ext rest (scanStep pfx ext acc f))
      unfold scanStep
      rw [hmatch]
      by_cases h : mid ≠ [] ∧ (digitsVal mid : Int) > acc.1
      · simp only [if_pos h]; exact le_refl _
      · simp only [if_neg h]
        push_neg at h
        exact h hne
    · exact ih (scanStep pfx ext acc g) f mid hrest hmatch hne

theorem scanNames_fst_ge (pfx ext : List Char) (names : List (List Char)) :
    -1 ≤ (scanNames pfx ext names).1 :=
  scan_foldl_fst_le pfx ext names (-1, 0)

/-- A name whose lower-casing is exactly `prefix ++ digits ++ ext` matches the
search pattern with capture `digits`. -/
theorem matchNumericName_complete (pfx ext f mid : List Char)
    (hmid : mid.all Char.isDigit = true)
    (heq : lowerC f = lowerC pfx ++ mid ++ lowerC ext) :
    matchNumericName pfx ext f = some mid := by
  unfold matchNumericName
  rw [heq]
  have hpre : lowerC pfx <+: lowerC pfx ++ mid ++ lowerC ext := by
    rw [List.append_assoc]; exact List.prefix_append _ _
  rw [if_pos hpre]
  have hdrop : (lowerC pfx ++ mid ++ lowerC ext).drop (lowerC pfx).length
      = mid ++ lowerC ext := by
    rw [List.append_assoc, List.drop_left]
  rw [hdrop]
  have hsuf : lowerC ext <:+ mid ++ lowerC ext := List.suffix_append _ _
  rw [if_pos hsuf]
  have htake : (mid ++ lowerC ext).take ((mid ++ lowerC ext).length - (lowerC ext).length)
      = mid := by
    rw [List.length_append, Nat.add_sub_cancel, List.take_left]
  rw [htake, if_pos hmid]

/-- GetUniqueFilenameVersion never returns a name that is already present
(case-insensitively) in the supplied name set: the key freshness property the
registry relies on. -/
theorem getUniqueFilenameVersionCore_fresh (filenames : List (List Char)) (filename : List Char) :
    ¬ containsCI filenames (getUniqueFilenameVersionCore filenames filename) := by
  unfold getUniqueFilenameVersionCore
  by_cases h : containsCI filenames filename
  · rw [if_pos h]
    rintro ⟨f, hf, heq⟩
    set pfx := namePfx filename with hpfx
    set ext := extPart filename with hext
    set s := scanNames pfx ext filenames with hs
    set mx : Nat := if s.1 = -1 then 0 else s.1.toNat with hmx
    set w : Nat := if s.1 = -1 then 4 else s.2 with hw
    have heq2 : lowerC f = lowerC pfx ++ padNat (mx + 1) w ++ lowerC ext := by
      rw [heq, lowerC_append, lowerC_append, lowerC_padNat]
    have hmatch : matchNumericName pfx ext f = some (padNat (mx + 1) w) :=
      matchNumericName_complete pfx ext f _ (padNat_all_digit _ _) heq2
    have hrec : (digitsVal (padNat (mx + 1) w) : Int) ≤ s.1 :=
      scan_foldl_records pfx ext filenames (-1, 0) f _ hf hmatch (padNat_ne_nil _ _)
    rw [digitsVal_padNat] at hrec
    by_cases hneg : s.1 = -1
    · rw [hneg] at hrec; omega
    · have hge : (0 : Int) ≤ s.1 := by
        have := scanNames_fst_ge pfx ext filenames
        rw [← hs] at this
        omega
      have hmxe : mx = s.1.toNat := by rw [hmx, if_neg hneg]
      rw [hmxe] at hrec
      push_cast at hrec
      omega
  · rw [if_neg h]
    exact h

/-- C4 (helper): the top-level wrapper is the identity on non-colliding input. -/
theorem GetUniqueFilenameVersion_of_not_contains (filename : String) (names : List String)
    (h : ¬ containsCI (names.map String.data) filename.data) :
    GetUniqueFilenameVersion filename names = filename := by
  unfold GetUniqueFilenameVersion getUniqueFilenameVersionCore
  rw [if_neg h]

theorem alookup_eq_none {α β : Type} [DecidableEq α] (l : List (α × β)) (a : α)
    (h : ∀ p ∈ l, p.1 ≠ a) : alookup l a = none := by
  induction l with
  | nil => rfl
  | cons p t ih =>
    obtain ⟨k, v⟩ := p
    rw [alookup, if_neg (h (k, v) (List.mem_cons_self _ _))]
    exact ih (fun q hq => h q (List.mem_cons_of_mem _ hq))

theorem DetermineFileGroup_declared (fp mt : String) (hm : ¬ ("META-INF".data <:+: fp.data))
    (h1 : mt ≠ "") (h2 : groupFromMediaType mt "" ≠ "") :
    DetermineFileGroup fp mt = groupFromMediaType mt "" := by
  simp [DetermineFileGroup, hm, h1, h2]

theorem DetermineFileGroup_extension (fp mt : String) (hm : ¬ ("META-INF".data <:+: fp.data))
    (h1 : mt = "" ∨ groupFromMediaType mt "" = "")
    (h2 : groupFromMediaType
        (mediaTypeFromExtension ⟨lowerC (suffixOf (filenameOf fp).data)⟩ "") "" ≠ "") :
    DetermineFileGroup fp mt =
      groupFromMediaType
        (mediaTypeFromExtension ⟨lowerC (suffixOf (filenameOf fp).data)⟩ "") "" := by
  have hE : mediaTypeFromExtension ⟨lowerC (suffixOf (filenameOf fp).data)⟩ "" ≠ "" := by
    intro h
    rw [h] at h2
    exact h2 rfl
  by_cases hmt : mt = ""
  · subst hmt
    simp [DetermineFileGroup, hm, hE, h2]
  · have hG : groupFromMediaType mt "" = "" := h1.resolve_left hmt
    simp [DetermineFileGroup, hm, hmt, hG, hE, h2]

theorem DetermineFileGroup_misc (fp mt : String) (hm : ¬ ("META-INF".data <:+: fp.data))
    (h1 : mt = "" ∨ groupFromMediaType mt "" = "")
    (h2 : groupFromMediaType
        (mediaTypeFromExtension ⟨lowerC (suffixOf (filenameOf fp).data)⟩ "") "" = "") :
    DetermineFileGroup fp mt = "Misc" := by
  by_cases hmt : mt = ""
  · subst hmt
    by_cases hE : mediaTypeFromExtension ⟨lowerC (suffixOf (filenameOf fp).data)⟩ "" = ""
    · simp [DetermineFileGroup, hm, hE]
    · simp [DetermineFileGroup, hm, hE, h2]
  · have hG : groupFromMediaType mt "" = "" := h1.resolve_left hmt
    by_cases hE : mediaTypeFromExtension ⟨lowerC (suffixOf (filenameOf fp).data)⟩ "" = ""
    · simp [DetermineFileGroup, hm, hmt, hG, hE]
    · simp [DetermineFileGroup, hm, hmt, hG, hE, h2]

/-- C3: when the candidate file name already occurs case-insensitively among
the existing names, `GetUniqueFilenameVersion` splits it into the
trailing-digit-stripped prefix and the extension, scans the existing names for
the maximal numeric suffix and that maximum's digit width (width 4 when no
numeric suffix existed), and returns `prefix ++ (max+1)` zero-padded to that
width `++ extension`; in particular
`MakeUnique("Section0001.xhtml", {"Section0001.xhtml"}) = "Section0002.xhtml"`
and `MakeUnique("image.png", {"image.png","image0001.png"}) = "image0002.png"`. -/
theorem C3_collision_increments_max :
    (∀ (filename : String) (names : List String),
        containsCI (names.map String.data) filename.data →
        GetUniqueFilenameVersion filename names =
          ⟨namePfx filename.data ++
            padNat (maxSuffixVal filename.data (names.map String.data) + 1)
              (suffixWidth filename.data (names.map String.data)) ++
            extPart filename.data⟩) ∧
    GetUniqueFilenameVersion "Section0001.xhtml" ["Section0001.xhtml"] = "Section0002.xhtml" ∧
    GetUniqueFilenameVersion "image.png" ["image.png", "image0001.png"] = "image0002.png" := by
  refine ⟨?_, by decide, by decide⟩
  intro filename names h
  unfold GetUniqueFilenameVersion getUniqueFilenameVersionCore
  rw [if_pos h]
  simp only [maxSuffixVal, suffixWidth]

theorem C3_collision_increments_max_witness :
    containsCI (["chapter.css"].map String.data) "chapter.css".data ∧
    GetUniqueFilenameVersion "chapter.css" ["chapter.css"] =
      ⟨namePfx "chapter.css".data ++
        padNat (maxSuffixVal "chapter.css".data (["chapter.css"].map String.data) + 1)
          (suffixWidth "chapter.css".data (["chapter.css"].map String.data)) ++
        extPart "chapter.css".data⟩ :=
  ⟨by decide, C3_collision_increments_max.1 "chapter.css" ["chapter.css"] (by decide)⟩

/-- C4: `GetUniqueFilenameVersion` is the identity whenever the candidate is
absent from the existing names under case-insensitive comparison. -/
theorem C4_identity_on_fresh (filename : String) (names : List String)
    (h : ¬ containsCI (names.map String.data) filename.data) :
    GetUniqueFilenameVersion filename names = filename :=
  GetUniqueFilenameVersion_of_not_contains filename names h

theorem C4_identity_on_fresh_witness :
    ¬ containsCI (["b.png"].map String.data) "a.png".data ∧
    GetUniqueFilenameVersion "a.png" ["b.png"] = "a.png" :=
  ⟨by decide, C4_identity_on_fresh "a.png" ["b.png"] (by decide)⟩

/-- C7: when the source path does not exist on disk, `AddContentFileToFolder`
throws `FileDoesNotExist` with that path (the error value reaches the caller
unmodified), and since the throw precedes every mutation the registry state is
exactly as before — the function rejects before touching either index. -/
theorem C7_missing_source_throws (fs : List String) (mainFolder : String) (st : RegState)
    (newId : Nat) (fullfilepath : String) (updateOpf : Bool)
    (mimetype bookpath folderpath : String) (h : fullfilepath ∉ fs) :
    AddContentFileToFolder fs mainFolder st newId fullfilepath updateOpf mimetype
      bookpath folderpath = .error (.fileDoesNotExist fullfilepath) := by
  unfold AddContentFileToFolder
  rw [if_neg h]

theorem C7_missing_source_throws_witness :
    "missing.css" ∉ (["present.css"] : List String) ∧
    AddContentFileToFolder ["present.css"] "/book" ⟨[], []⟩ 1 "missing.css" true "" "" "\\"
      = .error (.fileDoesNotExist "missing.css") :=
  ⟨by decide,
    C7_missing_source_throws ["present.css"] "/book" ⟨[], []⟩ 1 "missing.css" true "" "" "\\"
      (by decide)⟩

/-- C8: classification uses the declared media type when it maps to a known
group, otherwise the media type derived from the file extension, and falls
back to `"Misc"` when neither yields a group; adding `chapter.css` with no
declared media type yields group `Styles` and a book path inside the Styles
group's configured default folder `OEBPS/Styles`. -/
theorem C8_classification_cascade :
    (∀ fp mt : String, ¬ ("META-INF".data <:+: fp.data) → mt ≠ "" →
        groupFromMediaType mt "" ≠ "" →
        DetermineFileGroup fp mt = groupFromMediaType mt "") ∧
    (∀ fp mt : String, ¬ ("META-INF".data <:+: fp.data) →
        (mt = "" ∨ groupFromMediaType mt "" = "") →
        groupFromMediaType
          (mediaTypeFromExtension ⟨lowerC (suffixOf (filenameOf fp).data)⟩ "") "" ≠ "" →
        DetermineFileGroup fp mt =
          groupFromMediaType
            (mediaTypeFromExtension ⟨lowerC (suffixOf (filenameOf fp).data)⟩ "") "") ∧
    (∀ fp mt : String, ¬ ("META-INF".data <:+: fp.data) →
        (mt = "" ∨ groupFromMediaType mt "" = "") →
        groupFromMediaType
          (mediaTypeFromExtension ⟨lowerC (suffixOf (filenameOf fp).data)⟩ "") "" = "" →
        DetermineFileGroup fp mt = "Misc") ∧
    DetermineFileGroup "chapter.css" "" = "Styles" ∧
    GetDefaultFolderForGroup defaultGroupFolders "Styles" = "OEBPS/Styles" ∧
    AddContentFileToFolder ["/src/chapter.css"] "/book" ⟨[], []⟩ 1 "/src/chapter.css"
        true "" "" "\\"
      = .ok ({ resMap := [(1, "OEBPS/Styles/chapter.css")],
               pathIdx := [("OEBPS/Styles/chapter.css", 1)] }, 1) :=
  ⟨DetermineFileGroup_declared, DetermineFileGroup_extension, DetermineFileGroup_misc,
    rfl, rfl, rfl⟩

theorem C8_classification_cascade_witness :
    ¬ ("META-INF".data <:+: "chapter.css".data) ∧
    DetermineFileGroup "chapter.css" "" =
      groupFromMediaType
        (mediaTypeFromExtension ⟨lowerC (suffixOf (filenameOf "chapter.css").data)⟩ "") "" :=
  ⟨by decide,
    C8_classification_cascade.2.1 "chapter.css" "" (by decide) (Or.inl rfl) (by decide)⟩

/-- C10: lookup by identifier never raises — for an unregistered identifier
`GetResourceByIdentifier` returns the null resource (`none`) — whereas the
throwing lookup by book path raises `ResourceDoesNotExist` for an unoccupied
path. -/
theorem C10_lookup_contract :
    (∀ (st : RegState) (identifier : Nat), (∀ r ∈ st.resMap, r.1 ≠ identifier) →
        GetResourceByIdentifier st identifier = none) ∧
    (∀ (st : RegState) (bookpath : String), (∀ e ∈ st.pathIdx, e.1 ≠ bookpath) →
        GetResourceByBookPath st bookpath = .error (.resourceDoesNotExist bookpath)) := by
  constructor
  · intro st identifier h
    unfold GetResourceByIdentifier
    rw [alookup_eq_none st.resMap identifier h]
  · intro st bookpath h
    unfold GetResourceByBookPath
    rw [alookup_eq_none st.pathIdx bookpath h]

section AList

variable {α β : Type} [DecidableEq α]

theorem alookup_mem {l : List (α × β)} {a : α} {b : β} (h : alookup l a = some b) :
    (a, b) ∈ l := by
  induction l with
  | nil => exact absurd h (by simp [alookup])
  | cons p t ih =>
    obtain ⟨k, v⟩ := p
    rw [alookup] at h
    by_cases hk : k = a
    · rw [if_pos hk] at h
      subst hk
      obtain rfl : v = b := Option.some.inj h
      exact List.mem_cons_self _ _
    · rw [if_neg hk] at h
      exact List.mem_cons_of_mem _ (ih h)

theorem mem_alookup {l : List (α × β)} {a : α} {b : β} (hk : (l.map Prod.fst).Nodup)
    (h : (a, b) ∈ l) : alookup l a = some b := by
  induction l with
  | nil => exact absurd h (List.not_mem_nil _)
  | cons p t ih =>
    obtain ⟨k, v⟩ := p
    simp only [List.map_cons, List.nodup_cons] at hk
    rcases List.mem_cons.mp h with heq | hmem
    · obtain ⟨rfl, rfl⟩ := Prod.mk.inj heq
      rw [alookup, if_pos rfl]
    · have hka : k ≠ a := by
        intro hkk
        subst hkk
        exact hk.1 (List.mem_map.mpr ⟨(k, b), hmem, rfl⟩)
      rw [alookup, if_neg hka]
      exact ih hk.2 hmem

theorem mem_ainsert {l : List (α × β)} {a : α} {b : β} {x : α × β}
    (h : x ∈ ainsert l a b) : x = (a, b) ∨ x ∈ l := by
  induction l with
  | nil => simp only [ainsert, List.mem_singleton] at h; exact Or.inl h
  | cons p t ih =>
    obtain ⟨k, v⟩ := p
    rw [ainsert] at h
    by_cases hk : k = a
    · rw [if_pos hk] at h
      rcases List.mem_cons.mp h with heq | hmem
      · exact Or.inl heq
      · exact Or.inr (List.mem_cons_of_mem _ hmem)
    · rw [if_neg hk] at h
      rcases List.mem_cons.mp h with heq | hmem
      · exact Or.inr (heq ▸ List.mem_cons_self _ _)
      · rcases ih hmem with h1 | h2
        · exact Or.inl h1
        · exact Or.inr (List.mem_cons_of_mem _ h2)

theorem mem_ainsert_iff {l : List (α × β)} {a : α} {b : β} {x : α × β}
    (hk : (l.map Prod.fst).Nodup) :
    x ∈ ainsert l a b ↔ x = (a, b) ∨ (x ∈ l ∧ x.1 ≠ a) := by
  induction l with
  | nil => simp [ainsert]
  | cons p t ih =>
    obtain ⟨k, v⟩ := p
    simp only [List.map_cons, List.nodup_cons] at hk
    rw [ainsert]
    by_cases hka : k = a
    · rw [if_pos hka]
      simp only [List.mem_cons]
      constructor
      · rintro (heq | hmem)
        · exact Or.inl heq
        · refine Or.inr ⟨Or.inr hmem, fun hx1 => ?_⟩
          rw [← hka] at hx1
          exact hk.1 (List.mem_map.mpr ⟨x, hmem, hx1⟩)
      · rintro (heq | ⟨hmem | hmem, hne⟩)
        · exact Or.inl heq
        · exact absurd (by rw [hmem]; exact hka) hne
        · exact Or.inr hmem
    · simp only [if_neg hka, List.mem_cons, ih hk.2]
      constructor
      · rintro (heq | heq | ⟨hmem, hne⟩)
        · refine Or.inr ⟨Or.inl heq, ?_⟩
          rw [heq]
          exact hka
        · exact Or.inl heq
        · exact Or.inr ⟨Or.inr hmem, hne⟩
      · rintro (heq | ⟨hmem | hmem, hne⟩)
        · exact Or.inr (Or.inl heq)
        · exact Or.inl hmem
        · exact Or.inr (Or.inr ⟨hmem, hne⟩)

theorem keys_ainsert_subset {l : List (α × β)} {a c : α} {b : β}
    (h : c ∈ (ainsert l a b).map Prod.fst) : c ∈ l.map Prod.fst ∨ c = a := by
  obtain ⟨x, hx, rfl⟩ := List.mem_map.mp h
  rcases mem_ainsert hx with rfl | hmem
  · exact Or.inr rfl
  · exact Or.inl (List.mem_map.mpr ⟨x, hmem, rfl⟩)

theorem keys_nodup_ainsert {l : List (α × β)} {a : α} {b : β}
    (hk : (l.map Prod.fst).Nodup) : ((ainsert l a b).map Prod.fst).Nodup := by
  induction l with
  | nil => simp [ainsert]
  | cons p t ih =>
    obtain ⟨k, v⟩ := p
    simp only [List.map_cons, List.nodup_cons] at hk
    rw [ainsert]
    by_cases hka : k = a
    · subst hka
      simpa [List.nodup_cons] using hk
    · simp only [if_neg hka, List.map_cons, List.nodup_cons]
      refine ⟨?_, ih hk.2⟩
      intro hmem
      rcases keys_ainsert_subset hmem with h1 | h2
      · exact hk.1 h1
      · exact hka h2

theorem alookup_ainsert_self (l : List (α × β)) (a : α) (b : β) :
    alookup (ainsert l a b) a = some b := by
  induction l with
  | nil => simp [ainsert, alookup]
  | cons p t ih =>
    obtain ⟨k, v⟩ := p
    rw [ainsert]
    by_cases hka : k = a
    · rw [if_pos hka, alookup, if_pos rfl]
    · rw [if_neg hka, alookup, if_neg hka]
      exact ih

theorem alookup_ainsert_ne {l : List (α × β)} {a c : α} {b : β} (h : c ≠ a) :
    alookup (ainsert l a b) c = alookup l c := by
  induction l with
  | nil =>
    rw [show ainsert ([] : List (α × β)) a b = [(a, b)] from rfl]
    refine alookup_eq_none _ _ ?_
    rintro p hp
    rw [List.mem_singleton] at hp
    rw [hp]
    exact fun he => h he.symm
  | cons p t ih =>
    obtain ⟨k, v⟩ := p
    rw [ainsert]
    by_cases hka : k = a
    · rw [if_pos hka, alookup, alookup]
      have h1 : ¬ (a = c) := fun he => h he.symm
      have h2 : ¬ (k = c) := by rw [hka]; exact h1
      rw [if_neg h1, if_neg h2]
    · rw [if_neg hka, alookup, alookup]
      by_cases hkc : k = c
      · rw [if_pos hkc, if_pos hkc]
      · rw [if_neg hkc, if_neg hkc]
        exact ih

theorem aremove_sublist (l : List (α × β)) (a : α) : List.Sublist (aremove l a) l := by
  induction l with
  | nil => exact List.Sublist.refl _
  | cons p t ih =>
    obtain ⟨k, v⟩ := p
    rw [aremove]
    by_cases hka : k = a
    · rw [if_pos hka]
      exact List.sublist_cons_of_sublist _ (List.Sublist.refl _)
    · rw [if_neg hka]
      exact List.Sublist.cons₂ _ ih

theorem keys_nodup_aremove {l : List (α × β)} {a : α}
    (hk : (l.map Prod.fst).Nodup) : ((aremove l a).map Prod.fst).Nodup :=
  List.Nodup.sublist (List.Sublist.map Prod.fst (aremove_sublist l a)) hk

theorem mem_aremove_iff {l : List (α × β)} {a : α} {x : α × β}
    (hk : (l.map Prod.fst).Nodup) :
    x ∈ aremove l a ↔ x ∈ l ∧ x.1 ≠ a := by
  induction l with
  | nil => simp [aremove]
  | cons p t ih =>
    obtain ⟨k, v⟩ := p
    simp only [List.map_cons, List.nodup_cons] at hk
    rw [aremove]
    by_cases hka : k = a
    · subst hka
      rw [if_pos rfl]
      constructor
      · intro hmem
        refine ⟨List.mem_cons_of_mem _ hmem, ?_⟩
        intro hx1
        exact hk.1 (List.mem_map.mpr ⟨x, hmem, hx1⟩)
      · rintro ⟨hmem, hne⟩
        rcases List.mem_cons.mp hmem with heq | hm
        · exact absurd (by rw [heq]) hne
        · exact hm
    · rw [if_neg hka]
      simp only [List.mem_cons, ih hk.2]
      constructor
      · rintro (heq | ⟨hmem, hne⟩)
        · exact ⟨Or.inl heq, by rw [heq]; exact hka⟩
        · exact ⟨Or.inr hmem, hne⟩
      · rintro ⟨heq | hmem, hne⟩
        · exact Or.inl heq
        · exact Or.inr ⟨hmem, hne⟩

theorem keys_unique {l : List (α × β)} {a : α} {b c : β}
    (hk : (l.map Prod.fst).Nodup) (h1 : (a, b) ∈ l) (h2 : (a, c) ∈ l) : b = c := by
  have := mem_alookup hk h1
  have := mem_alookup hk h2
  simp_all

theorem values_unique {l : List (α × β)} {a c : α} {b : β}
    (hv : (l.map Prod.snd).Nodup) (h1 : (a, b) ∈ l) (h2 : (c, b) ∈ l) : a = c := by
  induction l with
  | nil => exact absurd h1 (List.not_mem_nil _)
  | cons p t ih =>
    obtain ⟨k, v⟩ := p
    simp only [List.map_cons, List.nodup_cons] at hv
    rcases List.mem_cons.mp h1 with he1 | hm1 <;> rcases List.mem_cons.mp h2 with he2 | hm2
    · obtain ⟨rfl, rfl⟩ := Prod.mk.inj he1
      obtain ⟨rfl, -⟩ := Prod.mk.inj he2
      rfl
    · obtain ⟨rfl, rfl⟩ := Prod.mk.inj he1
      exact absurd (List.mem_map.mpr ⟨(c, b), hm2, rfl⟩) hv.1
    · obtain ⟨rfl, rfl⟩ := Prod.mk.inj he2
      exact absurd (List.mem_map.mpr ⟨(a, b), hm1, rfl⟩) hv.1
    · exact ih hv.2 hm1 hm2

theorem values_nodup_ainsert {l : List (α × β)} {a : α} {b : β}
    (hv : (l.map Prod.snd).Nodup) (hfresh : ∀ p ∈ l, p.2 ≠ b) :
    ((ainsert l a b).map Prod.snd).Nodup := by
  induction l with
  | nil => simp [ainsert]
  | cons p t ih =>
    obtain ⟨k, v⟩ := p
    simp only [List.map_cons, List.nodup_cons] at hv
    rw [ainsert]
    by_cases hka : k = a
    · rw [if_pos hka]
      simp only [List.map_cons, List.nodup_cons]
      refine ⟨?_, hv.2⟩
      intro hmem
      obtain ⟨x, hx, hx2⟩ := List.mem_map.mp hmem
      exact hfresh x (List.mem_cons_of_mem _ hx) hx2
    · rw [if_neg hka]
      simp only [List.map_cons, List.nodup_cons]
      refine ⟨?_, ih hv.2 (fun q hq => hfresh q (List.mem_cons_of_mem _ hq))⟩
      intro hmem
      obtain ⟨x, hx, hx2⟩ := List.mem_map.mp hmem
      rcases mem_ainsert hx with rfl | hm
      · exact hfresh (k, v) (List.mem_cons_self _ _) hx2.symm
      · exact hv.1 (List.mem_map.mpr ⟨x, hm, hx2⟩)

end AList

theorem renameStep_of_none {s : RegState} {pr : Nat × String}
    (h : alookup s.resMap pr.1 = none) : renameStep s pr = s := by
  unfold renameStep
  rw [h]

theorem renameStep_of_occupied {s : RegState} {pr : Nat × String} {oldbp : String}
    (h : alookup s.resMap pr.1 = some oldbp)
    (hocc : ∃ r ∈ s.resMap, r.2 = renamedPath oldbp pr.2) : renameStep s pr = s := by
  unfold renameStep renameTo
  rw [h]
  simp [if_pos hocc]

theorem renameStep_of_free {s : RegState} {pr : Nat × String} {oldbp : String}
    (h : alookup s.resMap pr.1 = some oldbp)
    (hocc : ¬ ∃ r ∈ s.resMap, r.2 = renamedPath oldbp pr.2) :
    renameStep s pr =
      { resMap := ainsert s.resMap pr.1 (renamedPath oldbp pr.2),
        pathIdx := ainsert (aremove s.pathIdx oldbp) (renamedPath oldbp pr.2) pr.1 } := by
  unfold renameStep renameTo
  rw [h]
  simp [if_neg hocc]

theorem renameStep_consistent (s : RegState) (pr : Nat × String) (hc : Consistent s) :
    Consistent (renameStep s pr) := by
  obtain ⟨hkR, hvR, hkP, hmem⟩ := hc
  cases halook : alookup s.resMap pr.1 with
  | none => rw [renameStep_of_none halook]; exact ⟨hkR, hvR, hkP, hmem⟩
  | some oldbp =>
    by_cases hocc : ∃ r ∈ s.resMap, r.2 = renamedPath oldbp pr.2
    · rw [renameStep_of_occupied halook hocc]; exact ⟨hkR, hvR, hkP, hmem⟩
    · rw [renameStep_of_free halook hocc]
      push_neg at hocc
      have hrid : (pr.1, oldbp) ∈ s.resMap := alookup_mem halook
      have hkP2 : ((aremove s.pathIdx oldbp).map Prod.fst).Nodup := keys_nodup_aremove hkP
      refine ⟨keys_nodup_ainsert hkR, values_nodup_ainsert hvR hocc,
        keys_nodup_ainsert hkP2, ?_⟩
      intro r p
      rw [mem_ainsert_iff hkR, mem_ainsert_iff hkP2, mem_aremove_iff hkP]
      constructor
      · rintro (heq | ⟨hmem2, hne⟩)
        · obtain ⟨h1, h2⟩ := Prod.mk.inj heq
          subst h1
          subst h2
          exact Or.inl rfl
        · have hpi : (p, r) ∈ s.pathIdx := (hmem r p).mp hmem2
          refine Or.inr ⟨⟨hpi, ?_⟩, ?_⟩
          · intro hp
            have hp2 : p = oldbp := hp
            rw [hp2] at hmem2
            exact hne (values_unique hvR hmem2 hrid)
          · intro hp
            have hp2 : p = renamedPath oldbp pr.2 := hp
            exact hocc (r, p) hmem2 hp2
      · rintro (heq | ⟨⟨hpi, hpo⟩, hpn⟩)
        · obtain ⟨h1, h2⟩ := Prod.mk.inj heq
          subst h1
          subst h2
          exact Or.inl rfl
        · have hmem2 : (r, p) ∈ s.resMap := (hmem r p).mpr hpi
          refine Or.inr ⟨hmem2, ?_⟩
          intro hr
          have hr2 : r = pr.1 := hr
          rw [hr2] at hmem2
          exact hpo (keys_unique hkR hmem2 hrid)

theorem renameStep_other (s : RegState) (pr : Nat × String) (r : Nat) (hne : r ≠ pr.1) :
    alookup (renameStep s pr).resMap r = alookup s.resMap r := by
  cases halook : alookup s.resMap pr.1 with
  | none => rw [renameStep_of_none halook]
  | some oldbp =>
    by_cases hocc : ∃ q ∈ s.resMap, q.2 = renamedPath oldbp pr.2
    · rw [renameStep_of_occupied halook hocc]
    · rw [renameStep_of_free halook hocc]
      exact alookup_ainsert_ne hne

theorem renameStep_self (s : RegState) (pr : Nat × String) (oldbp : String)
    (h : alookup s.resMap pr.1 = some oldbp) :
    alookup (renameStep s pr).resMap pr.1 = some (renamedPath oldbp pr.2) ∨
    alookup (renameStep s pr).resMap pr.1 = some oldbp := by
  by_cases hocc : ∃ q ∈ s.resMap, q.2 = renamedPath oldbp pr.2
  · right
    rw [renameStep_of_occupied h hocc]
    exact h
  · left
    rw [renameStep_of_free h hocc]
    exact alookup_ainsert_self _ _ _

theorem bulkRename_fold (prs : List (Nat × String)) :
    ∀ s : RegState, Consistent s → (prs.map Prod.fst).Nodup →
      Consistent (prs.foldl renameStep s) ∧
      (∀ r, r ∉ prs.map Prod.fst →
        alookup (prs.foldl renameStep s).resMap r = alookup s.resMap r) ∧
      (∀ pr ∈ prs, ∀ oldbp, alookup s.resMap pr.1 = some oldbp →
        alookup (prs.foldl renameStep s).resMap pr.1 = some (renamedPath oldbp pr.2) ∨
        alookup (prs.foldl renameStep s).resMap pr.1 = some oldbp) := by
  induction prs with
  | nil =>
    intro s hc _
    exact ⟨hc, fun r _ => rfl, by simp⟩
  | cons pr rest ih =>
    intro s hc hnd
    simp only [List.map_cons, List.nodup_cons] at hnd
    have hc2 : Consistent (renameStep s pr) := renameStep_consistent s pr hc
    obtain ⟨ih1, ih2, ih3⟩ := ih (renameStep s pr) hc2 hnd.2
    simp only [List.foldl_cons]
    refine ⟨ih1, ?_, ?_⟩
    · intro r hr
      simp only [List.map_cons, List.mem_cons] at hr
      push_neg at hr
      rw [ih2 r hr.2, renameStep_other s pr r hr.1]
    · intro q hq oldbp hold
      rcases List.mem_cons.mp hq with rfl | hqr
      · have hkeep : alookup (rest.foldl renameStep (renameStep s q)).resMap q.1
            = alookup (renameStep s q).resMap q.1 := ih2 q.1 hnd.1
        rcases renameStep_self s q oldbp hold with hnew | hold2
        · exact Or.inl (by rw [hkeep, hnew])
        · exact Or.inr (by rw [hkeep, hold2])
      · have hq1 : q.1 ≠ pr.1 := by
          intro he
          exact hnd.1 (he ▸ List.mem_map.mpr ⟨q, hqr, rfl⟩)
        have : alookup (renameStep s pr).resMap q.1 = some oldbp := by
          rw [renameStep_other s pr q.1 hq1]
          exact hold
        exact ih3 q hqr oldbp this

theorem consistent_lookup_iff {s : RegState} (hc : Consistent s) (bp : String) (rid : Nat) :
    alookup s.pathIdx bp = some rid ↔ (rid, bp) ∈ s.resMap := by
  obtain ⟨hkR, hvR, hkP, hmem⟩ := hc
  constructor
  · intro h
    exact (hmem rid bp).mpr (alookup_mem h)
  · intro h
    exact mem_alookup hkP ((hmem rid bp).mp h)

/-- C2: after `BulkRenameResources`, the path index is exactly the
(book path → resource) mirror of the resources' current paths — the renamed
paths for the renames that succeeded, the untouched old paths for the renames
that were rejected, and nothing stale — with every index entry mapping to the
correct resource; each listed resource ends at its renamed path or,
when its rename was rejected, at its unchanged old path.  The concrete
instance exercises a batch in which the first rename is rejected (its target
is occupied) while the second still takes effect. -/
theorem C2_bulk_rename_index (st : RegState) (resources : List Nat) (newnames : List String)
    (hc : Consistent st) (hnd : resources.Nodup) (hlen : newnames.length = resources.length) :
    (Consistent (BulkRenameResources st resources newnames) ∧
     (∀ bp rid, alookup (BulkRenameResources st resources newnames).pathIdx bp = some rid ↔
        (rid, bp) ∈ (BulkRenameResources st resources newnames).resMap) ∧
     (∀ pr ∈ List.zip resources newnames, ∀ oldbp,
        alookup st.resMap pr.1 = some oldbp →
        alookup (BulkRenameResources st resources newnames).resMap pr.1
            = some (renamedPath oldbp pr.2) ∨
        alookup (BulkRenameResources st resources newnames).resMap pr.1 = some oldbp)) ∧
    BulkRenameResources
        ⟨[(1, "Text/A.x"), (2, "Text/B.x")], [("Text/A.x", 1), ("Text/B.x", 2)]⟩
        [1, 2] ["B.x", "C.x"]
      = ⟨[(1, "Text/A.x"), (2, "Text/C.x")], [("Text/A.x", 1), ("Text/C.x", 2)]⟩ := by
  have hznd : ((List.zip resources newnames).map Prod.fst).Nodup := by
    rw [List.map_fst_zip resources newnames (le_of_eq hlen.symm)]
    exact hnd
  obtain ⟨h1, _, h3⟩ := bulkRename_fold (List.zip resources newnames) st hc hznd
  exact ⟨⟨h1, fun bp rid => consistent_lookup_iff h1 bp rid, h3⟩, rfl⟩

theorem C2_bulk_rename_index_witness :
    Consistent (BulkRenameResources
      ⟨[(1, "Text/A.x"), (2, "Text/B.x")], [("Text/A.x", 1), ("Text/B.x", 2)]⟩
      [1, 2] ["B.x", "C.x"]) := by
  have hcon : Consistent ⟨[(1, "Text/A.x"), (2, "Text/B.x")],
      [("Text/A.x", 1), ("Text/B.x", 2)]⟩ := by
    refine ⟨by decide, by decide, by decide, ?_⟩
    intro r p
    simp only [List.mem_cons, List.not_mem_nil, or_false, Prod.mk.injEq]
    tauto
  exact (C2_bulk_rename_index _ [1, 2] ["B.x", "C.x"] hcon (by decide) (by decide)).1.1

theorem C10_lookup_contract_witness :
    GetResourceByIdentifier ⟨[(1, "OEBPS/a.xhtml")], [("OEBPS/a.xhtml", 1)]⟩ 2 = none ∧
    GetResourceByBookPath ⟨[(1, "OEBPS/a.xhtml")], [("OEBPS/a.xhtml", 1)]⟩ "OEBPS/b.xhtml"
      = .error (.resourceDoesNotExist "OEBPS/b.xhtml") :=
  ⟨C10_lookup_contract.1 ⟨[(1, "OEBPS/a.xhtml")], [("OEBPS/a.xhtml", 1)]⟩ 2 (by decide),
   C10_lookup_contract.2 ⟨[(1, "OEBPS/a.xhtml")], [("OEBPS/a.xhtml", 1)]⟩ "OEBPS/b.xhtml"
     (by decide)⟩

theorem splitC_ne_nil (l : List Char) : splitC l ≠ [] := by
  cases l with
  | nil => simp [splitC]
  | cons c t =>
    rw [splitC]
    by_cases h : c = '/'
    · simp [h]
    · rw [if_neg h]
      cases hs : splitC t with
      | nil => simp
      | cons a r => simp

theorem splitC_slash_free (l : List Char) : ∀ s ∈ splitC l, '/' ∉ s := by
  induction l with
  | nil =>
    intro s hs
    rw [splitC, List.mem_singleton] at hs
    subst hs
    simp
  | cons c t ih =>
    intro s hs
    rw [splitC] at hs
    by_cases h : c = '/'
    · rw [if_pos h] at hs
      rcases List.mem_cons.mp hs with rfl | hm
      · simp
      · exact ih s hm
    · rw [if_neg h] at hs
      cases hsp : splitC t with
      | nil => exact absurd hsp (splitC_ne_nil t)
      | cons a r =>
        rw [hsp] at hs
        rcases List.mem_cons.mp hs with rfl | hm
        · intro hmem
          rcases List.mem_cons.mp hmem with heq | hm2
          · exact h heq.symm
          · exact ih a (hsp ▸ List.mem_cons_self a r) hm2
        · exact ih s (hsp ▸ List.mem_cons_of_mem a hm)

theorem joinC_splitC (l : List Char) : joinC (splitC l) = l := by
  induction l with
  | nil => rfl
  | cons c t ih =>
    rw [splitC]
    by_cases h : c = '/'
    · rw [if_pos h]
      cases hsp : splitC t with
      | nil => exact absurd hsp (splitC_ne_nil t)
      | cons a r =>
        rw [show joinC ([] :: a :: r) = [] ++ '/' :: joinC (a :: r) from rfl]
        rw [← hsp, ih, h]
        rfl
    · rw [if_neg h]
      cases hsp : splitC t with
      | nil => exact absurd hsp (splitC_ne_nil t)
      | cons a r =>
        cases r with
        | nil =>
          rw [show joinC [c :: a] = c :: a from rfl]
          have ha : joinC [a] = t := by rw [← hsp]; exact ih
          rw [show joinC [a] = a from rfl] at ha
          rw [ha]
        | cons b r2 =>
          rw [show joinC ((c :: a) :: b :: r2) = (c :: a) ++ '/' :: joinC (b :: r2) from rfl,
            show (c :: a) ++ '/' :: joinC (b :: r2) = c :: (a ++ '/' :: joinC (b :: r2)) from rfl,
            show a ++ '/' :: joinC (b :: r2) = joinC (a :: b :: r2) from rfl, ← hsp, ih]

theorem length_splitC (l : List Char) : (splitC l).length = l.count '/' + 1 := by
  induction l with
  | nil => rfl
  | cons c t ih =>
    rw [splitC]
    by_cases h : c = '/'
    · rw [if_pos h]
      have hcnt : (c :: t).count '/' = t.count '/' + 1 := by simp [List.count_cons, h]
      rw [hcnt]
      simp only [List.length_cons, ih]
    · rw [if_neg h]
      cases hsp : splitC t with
      | nil => exact absurd hsp (splitC_ne_nil t)
      | cons a r =>
        have hl : (a :: r).length = t.count '/' + 1 := by rw [← hsp]; exact ih
        have hcnt : (c :: t).count '/' = t.count '/' := by simp [List.count_cons, h]
        rw [hcnt]
        simp only [List.length_cons] at hl ⊢
        omega

theorem count_joinC : ∀ segs : List (List Char), segs ≠ [] → (∀ s ∈ segs, '/' ∉ s) →
    (joinC segs).count '/' + 1 = segs.length := by
  intro segs
  induction segs with
  | nil => intro h; exact absurd rfl h
  | cons s t ih =>
    intro _ hsf
    cases t with
    | nil =>
      have hz : s.count '/' = 0 :=
        List.count_eq_zero.mpr (hsf s (List.mem_cons_self _ _))
      simp [joinC, hz]
    | cons b r =>
      rw [show joinC (s :: b :: r) = s ++ '/' :: joinC (b :: r) from rfl]
      have h1 : s.count '/' = 0 :=
        List.count_eq_zero.mpr (hsf s (List.mem_cons_self _ _))
      have h2 := ih (by simp) (fun x hx => hsf x (List.mem_cons_of_mem _ hx))
      have hc : ('/' :: joinC (b :: r)).count '/' = (joinC (b :: r)).count '/' + 1 := by
        simp [List.count_cons]
      rw [List.count_append, h1, hc]
      simp only [List.length_cons] at h2 ⊢
      omega

theorem joinC_head_ne {s : List Char} (t : List (List Char)) (h : s.head? ≠ some '^') :
    (joinC (s :: t)).head? ≠ some '^' := by
  cases t with
  | nil => exact h
  | cons b r =>
    rw [show joinC (s :: b :: r) = s ++ '/' :: joinC (b :: r) from rfl]
    cases s with
    | nil =>
      intro hc
      rw [List.nil_append, List.head?_cons] at hc
      simp at hc
    | cons c cs =>
      intro hc
      rw [List.cons_append, List.head?_cons] at hc
      rw [List.head?_cons] at h
      exact h hc

theorem joinC_mem_slash (s b : List Char) (r : List (List Char)) :
    '/' ∈ joinC (s :: b :: r) := by
  rw [show joinC (s :: b :: r) = s ++ '/' :: joinC (b :: r) from rfl]
  exact List.mem_append.mpr (Or.inr (List.mem_cons_self _ _))

theorem getLastD_mem {α : Type} : ∀ (l : List α) (d : α), l ≠ [] → l.getLastD d ∈ l
  | [], _, h => absurd rfl h
  | [a], d, _ => by simp [List.getLastD]
  | a :: b :: r, d, _ => by
      rw [show (a :: b :: r).getLastD d = (b :: r).getLastD a from rfl]
      exact List.mem_cons_of_mem _ (getLastD_mem (b :: r) a (by simp))

theorem fileNameC_mem (bp : List Char) : fileNameC bp ∈ splitC bp :=
  getLastD_mem (splitC bp) [] (splitC_ne_nil bp)

theorem fileNameC_slash_free (bp : List Char) : '/' ∉ fileNameC bp :=
  splitC_slash_free bp _ (fileNameC_mem bp)

theorem eq_fileNameC_of_depth_one {l : List Char} (h : (splitC l).length = 1) :
    fileNameC l = l := by
  cases hsp : splitC l with
  | nil => exact absurd hsp (splitC_ne_nil l)
  | cons a r =>
    rw [hsp] at h
    simp only [List.length_cons] at h
    have hr : r = [] := List.length_eq_zero.mp (by omega)
    subst hr
    have ha : joinC [a] = l := by rw [← hsp]; exact joinC_splitC l
    rw [show joinC [a] = a from rfl] at ha
    rw [fileNameC, hsp, show ([a] : List (List Char)).getLastD [] = a from rfl]
    exact ha

theorem buildShortName_one (bp : List Char) : buildShortName bp 1 = fileNameC bp := by
  simp [buildShortName, fileNameC]

theorem buildShortName_marked {bp : List Char} {lvl : Nat} (h2 : 2 ≤ lvl)
    (hd : (splitC bp).length ≤ lvl) : buildShortName bp lvl = '^' :: bp := by
  simp only [buildShortName]
  rw [if_neg (by omega : ¬ lvl = 1), if_pos hd]

theorem buildShortName_suffix {bp : List Char} {lvl : Nat} (h2 : 2 ≤ lvl)
    (hd : lvl < (splitC bp).length) :
    buildShortName bp lvl = joinC ((splitC bp).drop ((splitC bp).length - lvl)) := by
  simp only [buildShortName]
  rw [if_neg (by omega : ¬ lvl = 1), if_neg (by omega : ¬ (splitC bp).length ≤ lvl)]

theorem suffix_name_head {bp : List Char} {lvl : Nat} (h2 : 2 ≤ lvl)
    (hd : lvl < (splitC bp).length) (hm : MarkerFree bp) :
    (buildShortName bp lvl).head? ≠ some '^' := by
  rw [buildShortName_suffix h2 hd]
  cases hdr : (splitC bp).drop ((splitC bp).length - lvl) with
  | nil =>
    exfalso
    have hlen := congrArg List.length hdr
    rw [List.length_drop] at hlen
    simp at hlen
    omega
  | cons s t =>
    refine joinC_head_ne t ?_
    exact hm s (List.mem_of_mem_drop (by rw [hdr]; exact List.mem_cons_self _ _))

theorem suffix_name_count {bp : List Char} {lvl : Nat} (h2 : 2 ≤ lvl)
    (hd : lvl < (splitC bp).length) :
    (buildShortName bp lvl).count '/' + 1 = lvl := by
  rw [buildShortName_suffix h2 hd]
  have hlen : ((splitC bp).drop ((splitC bp).length - lvl)).length = lvl := by
    rw [List.length_drop]
    omega
  refine Eq.trans (count_joinC _ ?_ ?_) hlen
  · intro h
    rw [h] at hlen
    simp at hlen
    omega
  · intro s hs
    exact splitC_slash_free bp s (List.mem_of_mem_drop hs)

theorem suffix_name_slash_mem {bp : List Char} {lvl : Nat} (h2 : 2 ≤ lvl)
    (hd : lvl < (splitC bp).length) : '/' ∈ buildShortName bp lvl := by
  rw [buildShortName_suffix h2 hd]
  cases hdr : (splitC bp).drop ((splitC bp).length - lvl) with
  | nil =>
    exfalso
    have hlen := congrArg List.length hdr
    rw [List.length_drop] at hlen
    simp at hlen
    omega
  | cons s t =>
    cases t with
    | nil =>
      exfalso
      have hlen := congrArg List.length hdr
      rw [List.length_drop] at hlen
      simp at hlen
      omega
    | cons b r => exact joinC_mem_slash s b r

theorem new_name_shape (bp : List Char) (lvl : Nat) (h2 : 2 ≤ lvl) :
    (buildShortName bp lvl).head? = some '^' ∨ '/' ∈ buildShortName bp lvl := by
  by_cases hd : (splitC bp).length ≤ lvl
  · left
    rw [buildShortName_marked h2 hd]
    rfl
  · right
    exact suffix_name_slash_mem h2 (by omega)

section AListMore

variable {α β γ : Type} [DecidableEq α]

theorem alookup_aremove_ne {l : List (α × β)} {a c : α} (h : c ≠ a) :
    alookup (aremove l a) c = alookup l c := by
  induction l with
  | nil => rfl
  | cons p t ih =>
    obtain ⟨k, v⟩ := p
    rw [aremove]
    by_cases hka : k = a
    · rw [if_pos hka, alookup, if_neg (by rw [hka]; exact fun he => h he.symm)]
    · rw [if_neg hka, alookup, alookup]
      by_cases hkc : k = c
      · rw [if_pos hkc, if_pos hkc]
      · rw [if_neg hkc, if_neg hkc, ih]

theorem alookup_none_not_mem {l : List (α × β)} {a : α} (h : alookup l a = none) :
    a ∉ l.map Prod.fst := by
  induction l with
  | nil => simp
  | cons p t ih =>
    obtain ⟨k, v⟩ := p
    rw [alookup] at h
    by_cases hka : k = a
    · rw [if_pos hka] at h
      exact absurd h (by simp)
    · rw [if_neg hka] at h
      simp only [List.map_cons, List.mem_cons]
      intro hmem
      rcases hmem with he | hm
      · exact hka he.symm
      · exact ih h hm

theorem ainsert_of_not_mem {l : List (α × β)} {a : α} {b : β} (h : a ∉ l.map Prod.fst) :
    ainsert l a b = l ++ [(a, b)] := by
  induction l with
  | nil => rfl
  | cons p t ih =>
    obtain ⟨k, v⟩ := p
    simp only [List.map_cons, List.mem_cons] at h
    push_neg at h
    rw [ainsert, if_neg (fun he => h.1 he.symm), List.cons_append, ih h.2]

theorem flatten_aremove (l : List (α × List γ)) (g : α) (lst : List γ)
    (h : alookup l g = some lst) :
    ((((aremove l g).map Prod.snd).flatten ++ lst)).Perm ((l.map Prod.snd).flatten) := by
  induction l with
  | nil => exact absurd h (by simp [alookup])
  | cons p t ih =>
    obtain ⟨k, v⟩ := p
    rw [alookup] at h
    rw [aremove]
    by_cases hkg : k = g
    · rw [if_pos hkg] at h ⊢
      obtain rfl : v = lst := Option.some.inj h
      simp only [List.map_cons, List.flatten_cons]
      exact List.perm_append_comm
    · rw [if_neg hkg] at h ⊢
      simp only [List.map_cons, List.flatten_cons, List.append_assoc]
      exact List.Perm.append_left v (ih h)

theorem flatten_ainsert_fresh (l : List (α × List γ)) (a : α) (b : List γ)
    (h : a ∉ l.map Prod.fst) :
    ((ainsert l a b).map Prod.snd).flatten = (l.map Prod.snd).flatten ++ b := by
  rw [ainsert_of_not_mem h]
  simp

theorem flatten_ainsert_existing (l : List (α × List γ)) (a : α) (lst : List γ) (q : γ)
    (h : alookup l a = some lst) :
    (((ainsert l a (lst ++ [q])).map Prod.snd).flatten).Perm
      ((l.map Prod.snd).flatten ++ [q]) := by
  induction l with
  | nil => exact absurd h (by simp [alookup])
  | cons p t ih =>
    obtain ⟨k, v⟩ := p
    rw [alookup] at h
    rw [ainsert]
    by_cases hka : k = a
    · rw [if_pos hka] at h ⊢
      obtain rfl : v = lst := Option.some.inj h
      simp only [List.map_cons, List.flatten_cons, List.append_assoc]
      exact List.Perm.append_left _ List.perm_append_comm
    · rw [if_neg hka] at h ⊢
      simp only [List.map_cons, List.flatten_cons, List.append_assoc]
      exact List.Perm.append_left v (ih h)

theorem mem_flatten_of_mem_entry {l : List (α × List γ)} {pr : α × List γ} {q : γ}
    (hpr : pr ∈ l) (hq : q ∈ pr.2) : q ∈ (l.map Prod.snd).flatten :=
  List.mem_flatten.mpr ⟨pr.2, List.mem_map.mpr ⟨pr, hpr, rfl⟩, hq⟩

theorem alookup_map_self {l : List α} (g : α → β) {p : α} (hp : p ∈ l) :
    alookup (l.map (fun x => (x, g x))) p = some (g p) := by
  induction l with
  | nil => exact absurd hp (List.not_mem_nil _)
  | cons a t ih =>
    simp only [List.map_cons]
    rw [alookup]
    by_cases hap : a = p
    · rw [if_pos hap, hap]
    · rw [if_neg hap]
      rcases List.mem_cons.mp hp with rfl | hm
      · exact absurd rfl hap
      · exact ih hm

end AListMore

theorem pending_not_filed {P A : List (List Char)} {st : SPNState} (HP : P.Nodup)
    (hperm : (AllMembers st ++ A).Perm P) {q : List Char} (hqA : q ∈ A)
    {pr : List Char × List (List Char)} (hpr : pr ∈ st.ntb) : q ∉ pr.2 := by
  intro hq
  have h1 : q ∈ AllMembers st := mem_flatten_of_mem_entry hpr hq
  have hnd : (AllMembers st ++ A).Nodup := hperm.nodup_iff.mpr HP
  obtain ⟨-, -, hdisj⟩ := List.nodup_append.mp hnd
  exact hdisj h1 hqA

theorem stripMarker_of_head {l : List Char} (h : l.head? ≠ some '^') :
    stripMarker l = l := by
  cases l with
  | nil => rfl
  | cons c t =>
    rw [List.head?_cons] at h
    have hc : c ≠ '^' := fun he => h (by rw [he])
    unfold stripMarker
    split
    · rename_i heq
      exact absurd (List.head_eq_of_cons_eq heq.symm).symm hc
    · rfl

theorem processPath_some {st : SPNState} {lvl : Nat} {q : List Char} {lst : List (List Char)}
    (h : alookup st.ntb (buildShortName q lvl) = some lst) :
    processPath lvl st q =
      { bts := ainsert st.bts q (buildShortName q lvl),
        ntb := ainsert st.ntb (buildShortName q lvl) (lst ++ [q]),
        dup := dupInsert st.dup (buildShortName q lvl) } := by
  simp only [processPath]
  rw [h]

theorem processPath_none {st : SPNState} {lvl : Nat} {q : List Char}
    (h : alookup st.ntb (buildShortName q lvl) = none) :
    processPath lvl st q =
      { bts := ainsert st.bts q (buildShortName q lvl),
        ntb := ainsert st.ntb (buildShortName q lvl) [q],
        dup := st.dup } := by
  simp only [processPath]
  rw [h]

theorem pinv_processPath {p fn : List Char} {st : SPNState} (lvl : Nat) (q : List Char)
    (hq : q ≠ p) (hname : buildShortName q lvl ≠ fn) (hp : Pinv p fn st) :
    Pinv p fn (processPath lvl st q) := by
  obtain ⟨h1, h2, h3, h4⟩ := hp
  cases hl : alookup st.ntb (buildShortName q lvl) with
  | some lst =>
    rw [processPath_some hl]
    refine ⟨?_, ?_, ?_, ?_⟩
    · rw [alookup_ainsert_ne (Ne.symm hq)]
      exact h1
    · rw [alookup_ainsert_ne (Ne.symm hname)]
      exact h2
    · intro pr hpr hprfn
      rcases mem_ainsert hpr with rfl | hm
      · intro hmem
        rcases List.mem_append.mp hmem with hm1 | hm2
        · exact h3 _ (alookup_mem hl) hprfn hm1
        · rw [List.mem_singleton] at hm2
          exact hq hm2.symm
      · exact h3 pr hm hprfn
    · unfold dupInsert
      by_cases hd : buildShortName q lvl ∈ st.dup
      · rw [if_pos hd]
        exact h4
      · rw [if_neg hd]
        intro hmem
        rcases List.mem_append.mp hmem with hm1 | hm2
        · exact h4 hm1
        · rw [List.mem_singleton] at hm2
          exact hname hm2.symm
  | none =>
    rw [processPath_none hl]
    refine ⟨?_, ?_, ?_, ?_⟩
    · rw [alookup_ainsert_ne (Ne.symm hq)]
      exact h1
    · rw [alookup_ainsert_ne (Ne.symm hname)]
      exact h2
    · intro pr hpr hprfn
      rcases mem_ainsert hpr with rfl | hm
      · intro hmem
        rw [List.mem_singleton] at hmem
        exact hq hmem.symm
      · exact h3 pr hm hprfn
    · exact h4

theorem pinv_foldl {p fn : List Char} (lvl : Nat) (l : List (List Char))
    (hl : ∀ q ∈ l, q ≠ p ∧ buildShortName q lvl ≠ fn) :
    ∀ st : SPNState, Pinv p fn st → Pinv p fn (l.foldl (processPath lvl) st) := by
  induction l with
  | nil => intro st h; exact h
  | cons q t ih =>
    intro st h
    rw [List.foldl_cons]
    exact ih (fun x hx => hl x (List.mem_cons_of_mem _ hx)) _
      (pinv_processPath lvl q (hl q (List.mem_cons_self _ _)).1
        (hl q (List.mem_cons_self _ _)).2 h)

theorem pinv_processGroup {p fn : List Char} {st : SPNState} (lvl : Nat) (g : List Char)
    (hlvl : 2 ≤ lvl) (hg : g ≠ fn) (hsf : '/' ∉ fn) (hhd : fn.head? ≠ some '^')
    (hp : Pinv p fn st) : Pinv p fn (processGroup lvl st g) := by
  obtain ⟨h1, h2, h3, h4⟩ := hp
  unfold processGroup
  have hst2 : Pinv p fn { st with ntb := aremove st.ntb g } := by
    refine ⟨h1, ?_, ?_, h4⟩
    · rw [alookup_aremove_ne (Ne.symm hg)]
      exact h2
    · intro pr hpr hprfn
      exact h3 pr ((aremove_sublist st.ntb g).subset hpr) hprfn
  refine pinv_foldl lvl _ ?_ _ hst2
  intro q hq
  cases hgl : alookup st.ntb g with
  | none =>
    rw [hgl] at hq
    exact absurd hq (List.not_mem_nil _)
  | some lst =>
    rw [hgl] at hq
    have hqp : q ≠ p := by
      intro he
      subst he
      exact h3 (g, lst) (alookup_mem hgl) hg hq
    refine ⟨hqp, ?_⟩
    intro he
    rcases new_name_shape q lvl hlvl with hh | hh
    · rw [he] at hh
      exact hhd hh
    · rw [he] at hh
      exact hsf hh

theorem pinv_groups_foldl {p fn : List Char} (lvl : Nat) (todo : List (List Char))
    (hlvl : 2 ≤ lvl) (htodo : fn ∉ todo) (hsf : '/' ∉ fn) (hhd : fn.head? ≠ some '^') :
    ∀ st : SPNState, Pinv p fn st → Pinv p fn (todo.foldl (processGroup lvl) st) := by
  induction todo with
  | nil => intro st h; exact h
  | cons g t ih =>
    intro st h
    rw [List.foldl_cons]
    have hg : g ≠ fn := by
      intro he
      exact htodo (he ▸ List.mem_cons_self _ _)
    exact ih (fun hx => htodo (List.mem_cons_of_mem _ hx)) _
      (pinv_processGroup lvl g hlvl hg hsf hhd h)

theorem pinv_processRound {p fn : List Char} {st : SPNState} (lvl : Nat)
    (todo : List (List Char)) (hlvl : 2 ≤ lvl) (htodo : fn ∉ todo) (hsf : '/' ∉ fn)
    (hhd : fn.head? ≠ some '^') (hp : Pinv p fn st) :
    Pinv p fn (processRound lvl todo st) := by
  unfold processRound
  exact pinv_groups_foldl lvl todo hlvl htodo hsf hhd _
    ⟨hp.1, hp.2.1, hp.2.2.1, List.not_mem_nil _⟩

theorem pinv_runRounds {p fn : List Char} (hsf : '/' ∉ fn) (hhd : fn.head? ≠ some '^') :
    ∀ (fuel lvl : Nat) (todo : List (List Char)) (st : SPNState), 1 ≤ lvl →
      fn ∉ todo → Pinv p fn st → Pinv p fn (runRounds fuel lvl todo st).1 := by
  intro fuel
  induction fuel with
  | zero =>
    intro lvl todo st _ _ h3
    cases todo with
    | nil => exact h3
    | cons n t => exact h3
  | succ f ih =>
    intro lvl todo st h1 h2 h3
    cases todo with
    | nil => exact h3
    | cons n t =>
      show Pinv p fn (runRounds f (lvl + 1)
        (processRound (lvl + 1) (n :: t) st).dup (processRound (lvl + 1) (n :: t) st)).1
      have hst2 : Pinv p fn (processRound (lvl + 1) (n :: t) st) :=
        pinv_processRound (lvl + 1) (n :: t) (by omega) h2 hsf hhd h3
      exact ih (lvl + 1) _ _ (by omega) hst2.2.2.2 hst2

theorem preinv_processPath {p fn : List Char} {st : SPNState} (lvl : Nat) (q : List Char)
    (hq : q ≠ p) (hname : buildShortName q lvl ≠ fn) (hp : PreInv p fn st) :
    PreInv p fn (processPath lvl st q) := by
  obtain ⟨h1, h2, h3⟩ := hp
  cases hl : alookup st.ntb (buildShortName q lvl) with
  | some lst =>
    rw [processPath_some hl]
    refine ⟨?_, ?_, ?_⟩
    · rw [alookup_ainsert_ne (Ne.symm hname)]
      exact h1
    · intro pr hpr
      rcases mem_ainsert hpr with rfl | hm
      · intro hmem
        rcases List.mem_append.mp hmem with hm1 | hm2
        · exact h2 _ (alookup_mem hl) hm1
        · rw [List.mem_singleton] at hm2
          exact hq hm2.symm
      · exact h2 pr hm
    · unfold dupInsert
      by_cases hd : buildShortName q lvl ∈ st.dup
      · rw [if_pos hd]
        exact h3
      · rw [if_neg hd]
        intro hmem
        rcases List.mem_append.mp hmem with hm1 | hm2
        · exact h3 hm1
        · rw [List.mem_singleton] at hm2
          exact hname hm2.symm
  | none =>
    rw [processPath_none hl]
    refine ⟨?_, ?_, ?_⟩
    · rw [alookup_ainsert_ne (Ne.symm hname)]
      exact h1
    · intro pr hpr
      rcases mem_ainsert hpr with rfl | hm
      · intro hmem
        rw [List.mem_singleton] at hmem
        exact hq hmem.symm
      · exact h2 pr hm
    · exact h3

theorem preinv_foldl {p fn : List Char} (lvl : Nat) (l : List (List Char))
    (hl : ∀ q ∈ l, q ≠ p ∧ buildShortName q lvl ≠ fn) :
    ∀ st : SPNState, PreInv p fn st → PreInv p fn (l.foldl (processPath lvl) st) := by
  induction l with
  | nil => intro st h; exact h
  | cons q t ih =>
    intro st h
    rw [List.foldl_cons]
    exact ih (fun x hx => hl x (List.mem_cons_of_mem _ hx)) _
      (preinv_processPath lvl q (hl q (List.mem_cons_self _ _)).1
        (hl q (List.mem_cons_self _ _)).2 h)

theorem pinv_establish {p fn : List Char} {st : SPNState} (hfn : buildShortName p 1 = fn)
    (hp : PreInv p fn st) : Pinv p fn (processPath 1 st p) := by
  obtain ⟨h1, h2, h3⟩ := hp
  rw [processPath_none (hfn.symm ▸ h1)]
  rw [hfn]
  refine ⟨?_, ?_, ?_, h3⟩
  · exact alookup_ainsert_self _ _ _
  · exact alookup_ainsert_self _ _ _
  · intro pr hpr hprfn
    rcases mem_ainsert hpr with rfl | hm
    · exact absurd rfl hprfn
    · exact h2 pr hm

/-- C5 counterexample: in the path set `{b, a/b, x/^b}` the path `x/^b` has a
file name (`^b`) shared with no other path, yet the resolver does not assign
it its bare file name: the marked whole-path name `^b` of the colliding path
`b` collides with it, drags it into widening, and it ends with short name
`x/^b`.  This refutes "the resolver assigns every non-colliding book path its
bare filename as short name". -/
theorem C5_counterexample :
    fileNameC "b".data ≠ fileNameC "x/^b".data ∧
    fileNameC "a/b".data ≠ fileNameC "x/^b".data ∧
    ["b".data, "a/b".data, "x/^b".data].Nodup ∧
    alookup (computeShortNames ["b".data, "a/b".data, "x/^b".data]) "x/^b".data
      ≠ some (fileNameC "x/^b".data) :=
  ⟨by decide, by decide, by decide, by decide⟩

/-- C5 (amended): the short-path-name resolver resolves collisions by
widening — for `{OEBPS/Text/ch1.xhtml, OEBPS/Other/ch1.xhtml}` it assigns the
two-segment names `Text/ch1.xhtml` and `Other/ch1.xhtml` — and every path
whose file name collides with no other path's file name keeps exactly its
bare file name, provided that file name does not itself begin with the
reserved marker character `^` (as the counterexample shows, without this
proviso the claim is false). -/
theorem C5_short_name_resolution :
    (∀ (paths : List (List Char)) (p : List Char),
        paths.Nodup → p ∈ paths →
        (∀ q ∈ paths, q ≠ p → fileNameC q ≠ fileNameC p) →
        (fileNameC p).head? ≠ some '^' →
        alookup (computeShortNames paths) p = some (fileNameC p)) ∧
    computeShortNames ["OEBPS/Text/ch1.xhtml".data, "OEBPS/Other/ch1.xhtml".data]
      = [("OEBPS/Text/ch1.xhtml".data, "Text/ch1.xhtml".data),
         ("OEBPS/Other/ch1.xhtml".data, "Other/ch1.xhtml".data)] := by
  refine ⟨?_, by rfl⟩
  intro paths p hnd hmem huniq hhd
  have hsf : '/' ∉ fileNameC p := fileNameC_slash_free p
  obtain ⟨l1, l2, rfl⟩ := List.append_of_mem hmem
  obtain ⟨hnd1, hnd2, hdisj⟩ := List.nodup_append.mp hnd
  have hl1 : ∀ q ∈ l1, q ≠ p ∧ buildShortName q 1 ≠ fileNameC p := by
    intro q hq
    have hqp : q ≠ p := by
      intro he
      exact hdisj hq (he ▸ List.mem_cons_self _ _)
    refine ⟨hqp, ?_⟩
    rw [buildShortName_one]
    exact huniq q (List.mem_append.mpr (Or.inl hq)) hqp
  have hl2 : ∀ q ∈ l2, q ≠ p ∧ buildShortName q 1 ≠ fileNameC p := by
    intro q hq
    have hqp : q ≠ p := by
      intro he
      subst he
      exact (List.nodup_cons.mp hnd2).1 hq
    refine ⟨hqp, ?_⟩
    rw [buildShortName_one]
    exact huniq q (List.mem_append.mpr (Or.inr (List.mem_cons_of_mem _ hq))) hqp
  have hpre : PreInv p (fileNameC p) (l1.foldl (processPath 1) ⟨[], [], []⟩) :=
    preinv_foldl 1 l1 hl1 _
      ⟨rfl, fun pr hpr => absurd hpr (List.not_mem_nil _), List.not_mem_nil _⟩
  have hpinv0 : Pinv p (fileNameC p) (processPath 1 (l1.foldl (processPath 1) ⟨[], [], []⟩) p) :=
    pinv_establish (buildShortName_one p) hpre
  have hinit : Pinv p (fileNameC p) (initSPN (l1 ++ p :: l2)) := by
    unfold initSPN
    rw [List.foldl_append, List.foldl_cons]
    exact pinv_foldl 1 l2 hl2 _ hpinv0
  have hfin := pinv_runRounds hsf hhd
    (maxDepth (l1 ++ p :: l2) + (l1 ++ p :: l2).length + 1) 1
    (initSPN (l1 ++ p :: l2)).dup (initSPN (l1 ++ p :: l2)) (by omega)
    hinit.2.2.2 hinit
  unfold computeShortNames
  rw [alookup_map_self _ hmem, hfin.1]
  simp only [Option.getD_some]
  rw [stripMarker_of_head hhd]

theorem C5_short_name_resolution_witness :
    (["OEBPS/Text/ch1.xhtml".data, "OEBPS/Styles/main.css".data].Nodup ∧
     "OEBPS/Styles/main.css".data ∈
       ["OEBPS/Text/ch1.xhtml".data, "OEBPS/Styles/main.css".data]) ∧
    alookup (computeShortNames ["OEBPS/Text/ch1.xhtml".data, "OEBPS/Styles/main.css".data])
        "OEBPS/Styles/main.css".data
      = some (fileNameC "OEBPS/Styles/main.css".data) :=
  ⟨⟨by decide, by decide⟩,
    C5_short_name_resolution.1 ["OEBPS/Text/ch1.xhtml".data, "OEBPS/Styles/main.css".data]
      "OEBPS/Styles/main.css".data (by decide) (by decide) (by decide) (by decide)⟩

/-- C6 counterexample: for the distinct path set `{b, a/b, ^b, y/^^b}` the
maximum path depth is 2, yet the widening loop needs 3 rounds (marked names
chain through `^`-prefixed file names), so it does not end within
`maxDepth` rounds. -/
theorem C6_counterexample :
    ["b".data, "a/b".data, "^b".data, "y/^^b".data].Nodup ∧
    maxDepth ["b".data, "a/b".data, "^b".data, "y/^^b".data] = 2 ∧
    terminatesIn ["b".data, "a/b".data, "^b".data, "y/^^b".data] 2 = false ∧
    terminatesIn ["b".data, "a/b".data, "^b".data, "y/^^b".data] 3 = true :=
  ⟨by decide, by decide, by decide, by decide⟩

theorem depth_pos (l : List Char) : 0 < (splitC l).length := by
  cases h : splitC l with
  | nil => exact absurd h (splitC_ne_nil l)
  | cons a r => simp

theorem maxDepth_init_le : ∀ (l : List (List Char)) (a : Nat),
    a ≤ l.foldl (fun m bp => max m (splitC bp).length) a := by
  intro l
  induction l with
  | nil => intro a; exact le_refl a
  | cons q t ih =>
    intro a
    rw [List.foldl_cons]
    exact le_trans (Nat.le_max_left a _) (ih _)

theorem foldl_maxDepth_mem : ∀ (l : List (List Char)) (a : Nat) (bp : List Char), bp ∈ l →
    (splitC bp).length ≤ l.foldl (fun m q => max m (splitC q).length) a := by
  intro l
  induction l with
  | nil => intro a bp h; exact absurd h (List.not_mem_nil _)
  | cons q t ih =>
    intro a bp h
    rw [List.foldl_cons]
    rcases List.mem_cons.mp h with rfl | hm
    · exact le_trans (Nat.le_max_right a _) (maxDepth_init_le t _)
    · exact ih _ bp hm

theorem le_maxDepth {P : List (List Char)} {bp : List Char} (h : bp ∈ P) :
    (splitC bp).length ≤ maxDepth P :=
  foldl_maxDepth_mem P 0 bp h

theorem minv_processPath {P A : List (List Char)} {st : SPNState} {lvl : Nat} {q : List Char}
    (HP : P.Nodup) (HM : ∀ bp ∈ P, MarkerFree bp) (hlvl : 2 ≤ lvl)
    (hInv : MInv P lvl (q :: A) st) : MInv P lvl A (processPath lvl st q) := by
  obtain ⟨h1, h2, h3, h4, h5, h6⟩ := hInv
  have hqP : q ∈ P := h2.mem_iff.mp (List.mem_append.mpr (Or.inr (List.mem_cons_self _ _)))
  have hqM : MarkerFree q := HM q hqP
  by_cases hd : (splitC q).length ≤ lvl
  · have hbn : buildShortName q lvl = '^' :: q := buildShortName_marked hlvl hd
    have hnone : alookup st.ntb (buildShortName q lvl) = none := by
      cases hsome : alookup st.ntb (buildShortName q lvl) with
      | none => rfl
      | some lst =>
        exfalso
        have hmem := alookup_mem hsome
        have hhd2 : (buildShortName q lvl).head? = some '^' := by
          rw [hbn]
          rfl
        obtain ⟨bp, hbp1, hbp2⟩ := h4 _ hmem hhd2
        have hbp1b : buildShortName q lvl = '^' :: bp := hbp1
        rw [hbn] at hbp1b
        have hbq : q = bp := (List.cons.inj hbp1b).2
        have hlst : lst = [q] := by
          rw [hbq]
          exact hbp2
        refine pending_not_filed HP h2 (List.mem_cons_self q A) hmem ?_
        show q ∈ lst
        rw [hlst]
        exact List.mem_singleton.mpr rfl
    rw [processPath_none hnone]
    have hfresh : buildShortName q lvl ∉ st.ntb.map Prod.fst := alookup_none_not_mem hnone
    refine ⟨keys_nodup_ainsert h1, ?_, ?_, ?_, ?_, h6⟩
    · simp only [AllMembers]
      rw [flatten_ainsert_fresh _ _ _ hfresh, List.append_assoc]
      exact h2
    · intro pr hpr
      rcases mem_ainsert hpr with rfl | hm
      · simp
      · exact h3 pr hm
    · intro pr hpr hh
      rcases mem_ainsert hpr with rfl | hm
      · exact ⟨q, hbn, rfl⟩
      · exact h4 pr hm hh
    · intro pr hpr hh
      rcases mem_ainsert hpr with rfl | hm
      · exact absurd (show (buildShortName q lvl).head? = some '^' by rw [hbn]; rfl) hh
      · exact h5 pr hm hh
  · push_neg at hd
    have hhd : (buildShortName q lvl).head? ≠ some '^' := suffix_name_head hlvl hd hqM
    have hcnt : (buildShortName q lvl).count '/' + 1 = lvl := suffix_name_count hlvl hd
    cases hsome : alookup st.ntb (buildShortName q lvl) with
    | some lst =>
      have hmem := alookup_mem hsome
      have hdeep : ∀ bp ∈ lst, lvl < (splitC bp).length := by
        rcases h5 _ hmem hhd with hlt | hdp
        · exfalso
          have hlt2 : (buildShortName q lvl).count '/' + 1 < lvl := hlt
          omega
        · exact hdp.2
      rw [processPath_some hsome]
      refine ⟨keys_nodup_ainsert h1, ?_, ?_, ?_, ?_, ?_⟩
      · simp only [AllMembers]
        refine List.Perm.trans
          (List.Perm.append_right A (flatten_ainsert_existing st.ntb _ lst q hsome)) ?_
        rw [List.append_assoc]
        exact h2
      · intro pr hpr
        rcases mem_ainsert hpr with rfl | hm
        · simp
        · exact h3 pr hm
      · intro pr hpr hh
        rcases mem_ainsert hpr with rfl | hm
        · exact absurd hh hhd
        · exact h4 pr hm hh
      · intro pr hpr hh
        rcases mem_ainsert hpr with rfl | hm
        · right
          refine ⟨hcnt, ?_⟩
          intro bp hbp
          rcases List.mem_append.mp hbp with hb1 | hb2
          · exact hdeep bp hb1
          · rw [List.mem_singleton] at hb2
            subst hb2
            exact hd
        · exact h5 pr hm hh
      · intro n hn
        unfold dupInsert at hn
        by_cases hdm : buildShortName q lvl ∈ st.dup
        · rw [if_pos hdm] at hn
          exact h6 n hn
        · rw [if_neg hdm] at hn
          rcases List.mem_append.mp hn with hn1 | hn2
          · exact h6 n hn1
          · exact ⟨q, hqP, hd⟩
    | none =>
      rw [processPath_none hsome]
      have hfresh := alookup_none_not_mem hsome
      refine ⟨keys_nodup_ainsert h1, ?_, ?_, ?_, ?_, h6⟩
      · simp only [AllMembers]
        rw [flatten_ainsert_fresh _ _ _ hfresh, List.append_assoc]
        exact h2
      · intro pr hpr
        rcases mem_ainsert hpr with rfl | hm
        · simp
        · exact h3 pr hm
      · intro pr hpr hh
        rcases mem_ainsert hpr with rfl | hm
        · exact absurd hh hhd
        · exact h4 pr hm hh
      · intro pr hpr hh
        rcases mem_ainsert hpr with rfl | hm
        · right
          refine ⟨hcnt, ?_⟩
          intro bp hbp
          rw [List.mem_singleton] at hbp
          subst hbp
          exact hd
        · exact h5 pr hm hh

theorem minv_foldl {P : List (List Char)} {lvl : Nat} (HP : P.Nodup)
    (HM : ∀ bp ∈ P, MarkerFree bp) (hlvl : 2 ≤ lvl) (l : List (List Char)) :
    ∀ (A : List (List Char)) (st : SPNState), MInv P lvl (l ++ A) st →
      MInv P lvl A (l.foldl (processPath lvl) st) := by
  induction l with
  | nil => intro A st h; exact h
  | cons q t ih =>
    intro A st h
    rw [List.foldl_cons]
    exact ih A _ (minv_processPath HP HM hlvl h)

theorem aremove_of_not_mem {α β : Type} [DecidableEq α] {l : List (α × β)} {a : α}
    (h : a ∉ l.map Prod.fst) : aremove l a = l := by
  induction l with
  | nil => rfl
  | cons p t ih =>
    obtain ⟨k, v⟩ := p
    simp only [List.map_cons, List.mem_cons] at h
    push_neg at h
    rw [aremove, if_neg (fun he => h.1 he.symm), ih h.2]

theorem minv_aremove_of_some {P : List (List Char)} {lvl : Nat} {st : SPNState}
    {g : List Char} {lst : List (List Char)} (hgl : alookup st.ntb g = some lst)
    (h : MInv P lvl [] st) : MInv P lvl lst { st with ntb := aremove st.ntb g } := by
  obtain ⟨h1, h2, h3, h4, h5, h6⟩ := h
  refine ⟨keys_nodup_aremove h1, ?_, ?_, ?_, ?_, h6⟩
  · show ((((aremove st.ntb g).map Prod.snd).flatten) ++ lst).Perm P
    refine (flatten_aremove st.ntb g lst hgl).trans ?_
    rw [List.append_nil] at h2
    exact h2
  · intro pr hpr
    exact h3 pr ((aremove_sublist st.ntb g).subset hpr)
  · intro pr hpr hh
    exact h4 pr ((aremove_sublist st.ntb g).subset hpr) hh
  · intro pr hpr hh
    exact h5 pr ((aremove_sublist st.ntb g).subset hpr) hh

theorem minv_processGroup {P : List (List Char)} {lvl : Nat} (HP : P.Nodup)
    (HM : ∀ bp ∈ P, MarkerFree bp) (hlvl : 2 ≤ lvl) (g : List Char) {st : SPNState}
    (h : MInv P lvl [] st) : MInv P lvl [] (processGroup lvl st g) := by
  have hg : processGroup lvl st g =
      ((alookup st.ntb g).getD []).foldl (processPath lvl)
        { st with ntb := aremove st.ntb g } := rfl
  rw [hg]
  cases hgl : alookup st.ntb g with
  | none =>
    rw [aremove_of_not_mem (alookup_none_not_mem hgl)]
    exact h
  | some lst =>
    exact minv_foldl HP HM hlvl lst []
      { st with ntb := aremove st.ntb g }
      (by rw [List.append_nil]; exact minv_aremove_of_some hgl h)

theorem minv_groups {P : List (List Char)} {lvl : Nat} (HP : P.Nodup)
    (HM : ∀ bp ∈ P, MarkerFree bp) (hlvl : 2 ≤ lvl) :
    ∀ (todo : List (List Char)) (st : SPNState), MInv P lvl [] st →
      MInv P lvl [] (todo.foldl (processGroup lvl) st) := by
  intro todo
  induction todo with
  | nil => intro st h; exact h
  | cons g t ih =>
    intro st h
    rw [List.foldl_cons]
    exact ih _ (minv_processGroup HP HM hlvl g h)

theorem binv_processRound {P : List (List Char)} {lvl0 : Nat} (HP : P.Nodup)
    (HM : ∀ bp ∈ P, MarkerFree bp) (hlvl : 1 ≤ lvl0) (todo : List (List Char))
    {st : SPNState} (hB : BInv P lvl0 st) :
    BInv P (lvl0 + 1) (processRound (lvl0 + 1) todo st) := by
  obtain ⟨h1, h2, h3, h4, h5, h6⟩ := hB
  have hstart : MInv P (lvl0 + 1) [] { st with dup := [] } := by
    refine ⟨h1, ?_, h3, h4, ?_, ?_⟩
    · show (AllMembers st ++ []).Perm P
      rw [List.append_nil]
      exact h2
    · intro pr hpr hh
      left
      have := h5 pr hpr hh
      omega
    · intro n hn
      exact absurd hn (List.not_mem_nil _)
  have hend := minv_groups HP HM (by omega) todo { st with dup := [] } hstart
  obtain ⟨g1, g2, g3, g4, g5, g6⟩ := hend
  refine ⟨g1, ?_, g3, g4, ?_, g6⟩
  · rw [List.append_nil] at g2
    exact g2
  · intro pr hpr hh
    rcases g5 pr hpr hh with hlt | ⟨heq, -⟩
    · omega
    · omega

theorem runRounds_empty {P : List (List Char)} (HP : P.Nodup)
    (HM : ∀ bp ∈ P, MarkerFree bp) :
    ∀ (fuel lvl0 : Nat) (todo : List (List Char)) (st : SPNState), 1 ≤ lvl0 →
      st.dup = todo → BInv P lvl0 st → maxDepth P ≤ lvl0 + fuel →
      (runRounds fuel lvl0 todo st).2 = [] := by
  intro fuel
  induction fuel with
  | zero =>
    intro lvl0 todo st h1 hdup hB hf
    cases todo with
    | nil => rfl
    | cons n t =>
      exfalso
      obtain ⟨bp, hbpP, hbpd⟩ :=
        hB.2.2.2.2.2 n (by rw [hdup]; exact List.mem_cons_self n t)
      have := le_maxDepth hbpP
      omega
  | succ f ih =>
    intro lvl0 todo st h1 hdup hB hf
    cases todo with
    | nil => rfl
    | cons n t =>
      show (runRounds f (lvl0 + 1)
        (processRound (lvl0 + 1) (n :: t) st).dup (processRound (lvl0 + 1) (n :: t) st)).2 = []
      exact ih (lvl0 + 1) _ _ (by omega) rfl
        (binv_processRound HP HM h1 (n :: t) hB) (by omega)

theorem iinv_processPath {P A : List (List Char)} {st : SPNState} {q : List Char}
    (HP : P.Nodup) (HM : ∀ bp ∈ P, MarkerFree bp)
    (h : IInv P (q :: A) st) : IInv P A (processPath 1 st q) := by
  obtain ⟨h1, h2, h3, h4, h5, h6⟩ := h
  have hqP : q ∈ P := h2.mem_iff.mp (List.mem_append.mpr (Or.inr (List.mem_cons_self _ _)))
  have hfn : buildShortName q 1 = fileNameC q := buildShortName_one q
  have hfnhd : (fileNameC q).head? ≠ some '^' := HM q hqP _ (fileNameC_mem q)
  have hfncnt : (fileNameC q).count '/' = 0 := List.count_eq_zero.mpr (fileNameC_slash_free q)
  cases hsome : alookup st.ntb (buildShortName q 1) with
  | some lst =>
    have hmem := alookup_mem hsome
    rw [processPath_some hsome]
    refine ⟨keys_nodup_ainsert h1, ?_, ?_, ?_, ?_, ?_⟩
    · simp only [AllMembers]
      refine List.Perm.trans
        (List.Perm.append_right A (flatten_ainsert_existing st.ntb _ lst q hsome)) ?_
      rw [List.append_assoc]
      exact h2
    · intro pr hpr
      rcases mem_ainsert hpr with rfl | hm
      · simp
      · exact h3 pr hm
    · intro pr hpr
      rcases mem_ainsert hpr with rfl | hm
      · refine ⟨?_, ?_⟩
        · show (buildShortName q 1).head? ≠ some '^'
          rw [hfn]
          exact hfnhd
        · show (buildShortName q 1).count '/' = 0
          rw [hfn]
          exact hfncnt
      · exact h4 pr hm
    · intro pr hpr bp hbp
      rcases mem_ainsert hpr with rfl | hm
      · rcases List.mem_append.mp hbp with hb1 | hb2
        · exact h5 _ hmem bp hb1
        · rw [List.mem_singleton] at hb2
          subst hb2
          exact hfn.symm
      · exact h5 pr hm bp hbp
    · intro n hn
      unfold dupInsert at hn
      by_cases hdm : buildShortName q 1 ∈ st.dup
      · rw [if_pos hdm] at hn
        exact h6 n hn
      · rw [if_neg hdm] at hn
        rcases List.mem_append.mp hn with hn1 | hn2
        · exact h6 n hn1
        · cases hlst : lst with
          | nil => exact absurd hlst (h3 _ hmem)
          | cons bp0 rest =>
            have hbp0 : bp0 ∈ lst := by
              rw [hlst]
              exact List.mem_cons_self _ _
            have hbp0fn : fileNameC bp0 = buildShortName q 1 := h5 _ hmem bp0 hbp0
            have hbp0P : bp0 ∈ P :=
              h2.mem_iff.mp (List.mem_append.mpr (Or.inl (mem_flatten_of_mem_entry hmem hbp0)))
            have hbp0q : bp0 ≠ q := by
              intro he
              exact pending_not_filed HP h2 (List.mem_cons_self q A) hmem (he ▸ hbp0)
            by_cases hd1 : (splitC q).length = 1
            · by_cases hd0 : (splitC bp0).length = 1
              · exfalso
                have e1 : fileNameC q = q := eq_fileNameC_of_depth_one hd1
                have e0 : fileNameC bp0 = bp0 := eq_fileNameC_of_depth_one hd0
                exact hbp0q (e0.symm.trans (hbp0fn.trans (hfn.trans e1)))
              · refine ⟨bp0, hbp0P, ?_⟩
                have := depth_pos bp0
                omega
            · refine ⟨q, hqP, ?_⟩
              have := depth_pos q
              omega
  | none =>
    rw [processPath_none hsome]
    have hfresh := alookup_none_not_mem hsome
    refine ⟨keys_nodup_ainsert h1, ?_, ?_, ?_, ?_, h6⟩
    · simp only [AllMembers]
      rw [flatten_ainsert_fresh _ _ _ hfresh, List.append_assoc]
      exact h2
    · intro pr hpr
      rcases mem_ainsert hpr with rfl | hm
      · simp
      · exact h3 pr hm
    · intro pr hpr
      rcases mem_ainsert hpr with rfl | hm
      · refine ⟨?_, ?_⟩
        · show (buildShortName q 1).head? ≠ some '^'
          rw [hfn]
          exact hfnhd
        · show (buildShortName q 1).count '/' = 0
          rw [hfn]
          exact hfncnt
      · exact h4 pr hm
    · intro pr hpr bp hbp
      rcases mem_ainsert hpr with rfl | hm
      · rw [List.mem_singleton] at hbp
        subst hbp
        exact hfn.symm
      · exact h5 pr hm bp hbp

theorem iinv_foldl {P : List (List Char)} (HP : P.Nodup)
    (HM : ∀ bp ∈ P, MarkerFree bp) (l : List (List Char)) :
    ∀ (A : List (List Char)) (st : SPNState), IInv P (l ++ A) st →
      IInv P A (l.foldl (processPath 1) st) := by
  induction l with
  | nil => intro A st h; exact h
  | cons q t ih =>
    intro A st h
    rw [List.foldl_cons]
    exact ih A _ (iinv_processPath HP HM h)

theorem binv_init {P : List (List Char)} (HP : P.Nodup)
    (HM : ∀ bp ∈ P, MarkerFree bp) : BInv P 1 (initSPN P) := by
  have h0 : IInv P P ⟨[], [], []⟩ := by
    refine ⟨List.nodup_nil, List.Perm.refl P, ?_, ?_, ?_, ?_⟩
    · intro pr hpr
      exact absurd hpr (List.not_mem_nil _)
    · intro pr hpr
      exact absurd hpr (List.not_mem_nil _)
    · intro pr hpr
      exact absurd hpr (List.not_mem_nil _)
    · intro n hn
      exact absurd hn (List.not_mem_nil _)
  have hfin := iinv_foldl HP HM P [] ⟨[], [], []⟩ (by rw [List.append_nil]; exact h0)
  obtain ⟨g1, g2, g3, g4, g5, g6⟩ := hfin
  refine ⟨g1, ?_, g3, ?_, ?_, g6⟩
  · rw [List.append_nil] at g2
    exact g2
  · intro pr hpr hh
    exact absurd hh (g4 pr hpr).1
  · intro pr hpr hh
    have := (g4 pr hpr).2
    omega

/-- C6 (amended): for every duplicate-free set of book paths none of whose
segments begins with the reserved marker character `^`, the collision-widening
while loop of `updateShortPathNames` terminates within `maxDepth` rounds.
Without the marker-free proviso the depth bound of the claim is false:
`C6_counterexample` exhibits four paths of maximum depth 2 that need a third
round. -/
theorem C6_loop_terminates_within_depth (paths : List (List Char))
    (hnd : paths.Nodup) (hmf : ∀ bp ∈ paths, MarkerFree bp) :
    terminatesIn paths (maxDepth paths) = true := by
  have h := runRounds_empty hnd hmf (maxDepth paths) 1 (initSPN paths).dup
    (initSPN paths) (by omega) rfl (binv_init hnd hmf) (by omega)
  show (runRounds (maxDepth paths) 1 (initSPN paths).dup (initSPN paths)).2.isEmpty = true
  rw [h]
  rfl

/-- Witness: the claim theorem applied to the two-path set of the spec's own
example, whose maximum depth is 3. -/
theorem C6_loop_terminates_within_depth_witness :
    (["OEBPS/Text/ch1.xhtml".data, "OEBPS/Other/ch1.xhtml".data].Nodup ∧
      (∀ bp ∈ ["OEBPS/Text/ch1.xhtml".data, "OEBPS/Other/ch1.xhtml".data], MarkerFree bp)) ∧
    terminatesIn ["OEBPS/Text/ch1.xhtml".data, "OEBPS/Other/ch1.xhtml".data]
      (maxDepth ["OEBPS/Text/ch1.xhtml".data, "OEBPS/Other/ch1.xhtml".data]) = true :=
  ⟨⟨by decide, by decide⟩,
    C6_loop_terminates_within_depth _ (by decide) (by decide)⟩

theorem mem_baseNameOf {c : Char} {l : List Char} (h : c ∈ baseNameOf l) : c ∈ l :=
  (List.takeWhile_sublist _).subset h

theorem mem_stripTrailingDigits {c : Char} {l : List Char} (h : c ∈ stripTrailingDigits l) :
    c ∈ l := by
  unfold stripTrailingDigits at h
  rw [List.mem_reverse] at h
  have h2 := (List.dropWhile_sublist _).subset h
  rw [List.mem_reverse] at h2
  exact h2

theorem mem_namePfx {c : Char} {l : List Char} (h : c ∈ namePfx l) : c ∈ l :=
  mem_baseNameOf (mem_stripTrailingDigits h)

theorem mem_extPart {c : Char} {l : List Char} (h : c ∈ extPart l) : c = '.' ∨ c ∈ l := by
  unfold extPart at h
  by_cases he : completeSuffixOf l = []
  · rw [if_pos he] at h
    exact absurd h (List.not_mem_nil _)
  · rw [if_neg he] at h
    rcases List.mem_cons.mp h with rfl | hm
    · exact Or.inl rfl
    · right
      unfold completeSuffixOf at hm
      exact (List.dropWhile_sublist _).subset ((List.drop_sublist 1 _).subset hm)

/-- Generated unique names contain no path separator when the candidate file
name contains none: the prefix and extension are parts of the candidate and
the inserted run is all digits. -/
theorem core_slash_free (names : List (List Char)) {fn : List Char} (h : '/' ∉ fn) :
    '/' ∉ getUniqueFilenameVersionCore names fn := by
  unfold getUniqueFilenameVersionCore
  by_cases hc : containsCI names fn
  · rw [if_pos hc]
    intro hm
    rcases List.mem_append.mp hm with hm1 | hm2
    · rcases List.mem_append.mp hm1 with hp | hd
      · exact h (mem_namePfx hp)
      · exact absurd (List.all_eq_true.mp (padNat_all_digit _ _) '/' hd) (by decide)
    · rcases mem_extPart hm2 with he | hl
      · exact absurd he (by decide)
      · exact h hl
  · rw [if_neg hc]
    exact h

theorem splitC_eq_self_of_slash_free {n : List Char} (h : '/' ∉ n) : splitC n = [n] := by
  induction n with
  | nil => rfl
  | cons c t ih =>
    rw [List.mem_cons] at h
    push_neg at h
    rw [splitC, if_neg (fun he => h.1 he.symm), ih h.2]

theorem getLastD_of_ne_nil {α : Type} : ∀ (l : List α) (d e : α), l ≠ [] →
    l.getLastD d = l.getLastD e
  | [], _, _, h => absurd rfl h
  | a :: l, d, e, _ => by rw [List.getLastD_cons, List.getLastD_cons]

/-- The last `splitC` segment of `a ++ "/" ++ n` is `n` when `n` is
separator-free, whatever the default. -/
theorem getLastD_splitC_slash {n : List Char} (hn : '/' ∉ n) :
    ∀ (a : List Char) (d : List Char), (splitC (a ++ '/' :: n)).getLastD d = n := by
  intro a
  induction a with
  | nil =>
    intro d
    rw [List.nil_append, splitC, if_pos rfl, List.getLastD_cons,
      splitC_eq_self_of_slash_free hn, List.getLastD_cons]
    rfl
  | cons c t ih =>
    intro d
    rw [List.cons_append, splitC]
    by_cases hc : c = '/'
    · rw [if_pos hc, List.getLastD_cons]
      exact ih []
    · rw [if_neg hc]
      cases hs : splitC (t ++ '/' :: n) with
      | nil => exact absurd hs (splitC_ne_nil _)
      | cons h0 r =>
        show ((c :: h0) :: r).getLastD d = n
        rw [List.getLastD_cons]
        have hr : r ≠ [] := by
          intro hre
          rw [hre] at hs
          have hlen := length_splitC (t ++ '/' :: n)
          rw [hs] at hlen
          simp only [List.length_cons, List.length_nil] at hlen
          have hcnt : (t ++ '/' :: n).count '/' = 0 := by omega
          exact List.count_eq_zero.mp hcnt
            (List.mem_append.mpr (Or.inr (List.mem_cons_self _ _)))
        have hih := ih d
        rw [hs, List.getLastD_cons] at hih
        rw [getLastD_of_ne_nil r (c :: h0) h0 hr]
        exact hih

theorem filenameOf_slash_free (p : String) : '/' ∉ (filenameOf p).data :=
  splitC_slash_free p.data _ (getLastD_mem (splitC p.data) [] (splitC_ne_nil p.data))

theorem filenameOf_append_slash (a b : String) (h : '/' ∉ b.data) :
    filenameOf (a ++ "/" ++ b) = b := by
  show (⟨(splitC (a ++ "/" ++ b).data).getLastD []⟩ : String) = b
  have hd : (a ++ "/" ++ b).data = a.data ++ '/' :: b.data := by
    rw [String.data_append, String.data_append, List.append_assoc]
    rfl
  rw [hd, getLastD_splitC_slash h a.data]

theorem filenameOf_of_slash_free (b : String) (h : '/' ∉ b.data) : filenameOf b = b := by
  show (⟨(splitC b.data).getLastD []⟩ : String) = b
  rw [splitC_eq_self_of_slash_free h]
  rfl

theorem strippedName_slash_free (fullfilepath : String) :
    '/' ∉ (strippedName fullfilepath).data := by
  unfold strippedName
  by_cases hdot : (filenameOf fullfilepath).data.head? = some '.'
  · rw [if_pos hdot]
    intro hm
    exact filenameOf_slash_free fullfilepath ((List.drop_sublist 1 _).subset hm)
  · rw [if_neg hdot]
    exact filenameOf_slash_free fullfilepath

theorem autoUniqueName_slash_free (st : RegState) (fullfilepath : String) :
    '/' ∉ (autoUniqueName st fullfilepath).data :=
  core_slash_free ((GetAllFilenames st).map String.data) (strippedName_slash_free fullfilepath)

/-- The mutex-protected unique name differs from the file name of every
registered resource (this is `getUniqueFilenameVersionCore_fresh` read back
through `GetAllFilenames`). -/
theorem autoUniqueName_fresh (st : RegState) (fullfilepath : String) :
    ∀ r ∈ st.resMap, filenameOf r.2 ≠ autoUniqueName st fullfilepath := by
  intro r hr he
  have hci : containsCI ((GetAllFilenames st).map String.data)
      (autoUniqueName st fullfilepath).data := by
    refine ⟨(filenameOf r.2).data, ?_, by rw [he]⟩
    exact List.mem_map.mpr ⟨filenameOf r.2, List.mem_map.mpr ⟨r, hr, rfl⟩, rfl⟩
  exact getUniqueFilenameVersionCore_fresh ((GetAllFilenames st).map String.data)
    (strippedName fullfilepath).data hci

/-- On an ok result the resource map gains exactly the one new entry holding
the chosen book path. -/
theorem addContentFile_ok {fs : List String} {mainFolder : String} {st : RegState}
    {newId : Nat} {fullfilepath : String} {updateOpf : Bool}
    {mimetype bookpath folderpath : String} {st' : RegState} {rid : Nat}
    (hok : AddContentFileToFolder fs mainFolder st newId fullfilepath updateOpf
      mimetype bookpath folderpath = .ok (st', rid)) :
    st'.resMap = st.resMap ++
      [(newId, chosenBookPath mainFolder st fullfilepath mimetype bookpath folderpath)] := by
  unfold AddContentFileToFolder at hok
  by_cases hfs : fullfilepath ∈ fs
  · rw [if_pos hfs] at hok
    have h1 := Except.ok.inj hok
    injection h1 with h2 h3
    rw [← h2]
  · rw [if_neg hfs] at hok
    exact Except.noConfusion hok

/-- An automatically built book path is fresh: its file name is the unique
name, which no registered resource's file name matches. -/
theorem chosenBookPath_auto_fresh (mainFolder : String) (st : RegState)
    (fullfilepath mimetype folderpath : String)
    (hmeta : ¬ ("META-INF".data <:+: fullfilepath.data)) :
    ∀ r ∈ st.resMap,
      r.2 ≠ chosenBookPath mainFolder st fullfilepath mimetype "" folderpath := by
  intro r hr heq
  have hbp : chosenBookPath mainFolder st fullfilepath mimetype "" folderpath =
      (if folderToUse fullfilepath mimetype folderpath ≠ "" then
        folderToUse fullfilepath mimetype folderpath ++ "/" ++ autoUniqueName st fullfilepath
      else autoUniqueName st fullfilepath) := by
    unfold chosenBookPath
    rw [if_neg (fun h => h rfl), if_neg hmeta]
  rw [hbp] at heq
  have hfn : filenameOf r.2 = autoUniqueName st fullfilepath := by
    by_cases hf : folderToUse fullfilepath mimetype folderpath ≠ ""
    · rw [if_pos hf] at heq
      rw [heq]
      exact filenameOf_append_slash _ _ (autoUniqueName_slash_free st fullfilepath)
    · rw [if_neg hf] at heq
      rw [heq]
      exact filenameOf_of_slash_free _ (autoUniqueName_slash_free st fullfilepath)
  exact autoUniqueName_fresh st fullfilepath r hr hfn

theorem paths_nodup_append {st : RegState} {newId : Nat} {bp : String}
    (h : (st.resMap.map Prod.snd).Nodup) (hfresh : ∀ r ∈ st.resMap, r.2 ≠ bp) :
    ((st.resMap ++ [(newId, bp)]).map Prod.snd).Nodup := by
  rw [List.map_append]
  refine List.Nodup.append h (List.nodup_singleton _) ?_
  intro x hx hx2
  obtain ⟨r, hr, rfl⟩ := List.mem_map.mp hx
  rw [List.map_cons, List.map_nil, List.mem_singleton] at hx2
  exact hfresh r hr hx2

theorem renameStep_paths_nodup {s : RegState} (pr : Nat × String)
    (h : (s.resMap.map Prod.snd).Nodup) :
    ((renameStep s pr).resMap.map Prod.snd).Nodup := by
  cases hl : alookup s.resMap pr.1 with
  | none =>
    rw [renameStep_of_none hl]
    exact h
  | some oldbp =>
    by_cases hocc : ∃ r ∈ s.resMap, r.2 = renamedPath oldbp pr.2
    · rw [renameStep_of_occupied hl hocc]
      exact h
    · rw [renameStep_of_free hl hocc]
      push_neg at hocc
      exact values_nodup_ainsert h hocc

theorem bulk_paths_nodup (l : List (Nat × String)) :
    ∀ s : RegState, (s.resMap.map Prod.snd).Nodup →
      ((l.foldl renameStep s).resMap.map Prod.snd).Nodup := by
  induction l with
  | nil => intro s h; exact h
  | cons pr t ih =>
    intro s h
    rw [List.foldl_cons]
    exact ih _ (renameStep_paths_nodup pr h)

/-- The book-path column of the resource map stays duplicate-free along every
reachable state. -/
theorem reachable_paths_nodup {st : RegState} (h : Reachable st) :
    (st.resMap.map Prod.snd).Nodup := by
  induction h with
  | init => exact List.nodup_nil
  | step hr hs ih =>
    cases hs with
    | addAuto fs mainFolder _ _ newId rid ffp upd mt fp hmeta hok =>
      rw [addContentFile_ok hok]
      exact paths_nodup_append ih (chosenBookPath_auto_fresh _ _ _ _ _ hmeta)
    | addExplicit fs mainFolder _ _ newId rid ffp upd mt bp fp hbp hfresh hok =>
      rw [addContentFile_ok hok]
      refine paths_nodup_append ih ?_
      intro r hrr
      unfold chosenBookPath
      rw [if_pos hbp]
      exact hfresh r hrr
    | addMeta fs mainFolder _ _ newId rid ffp upd mt fp hmeta hfresh hok =>
      rw [addContentFile_ok hok]
      refine paths_nodup_append ih ?_
      intro r hrr
      unfold chosenBookPath
      rw [if_neg (fun hh => hh rfl), if_pos hmeta]
      exact hfresh r hrr
    | bulkRename _ resources newnames =>
      exact bulk_paths_nodup (List.zip resources newnames) _ ih

/-- C1: book-path uniqueness invariant — in every registry state reachable
through the modelled FolderKeeper API (automatic adds, adds with a
caller-supplied fresh book path, `META-INF` adds under the same caller
obligation, and bulk renames), any two distinct registered resources hold
different book paths. -/
theorem C1_book_path_unique (st : RegState) (hst : Reachable st) :
    ∀ r1 ∈ st.resMap, ∀ r2 ∈ st.resMap, r1 ≠ r2 → r1.2 ≠ r2.2 := by
  intro r1 h1 r2 h2 hne heq
  exact hne (List.inj_on_of_nodup_map (reachable_paths_nodup hst) h1 h2 heq)

/-- Witness: a two-resource state reached by an automatic add of
`chapter.css` followed by an add with the explicit book path
`OEBPS/Text/ch1.xhtml`; the two registered book paths differ. -/
theorem C1_book_path_unique_witness :
    ("OEBPS/Styles/chapter.css" : String) ≠ "OEBPS/Text/ch1.xhtml" := by
  have h1 : Reachable
      ⟨[(1, "OEBPS/Styles/chapter.css")], [("OEBPS/Styles/chapter.css", 1)]⟩ :=
    Reachable.step Reachable.init
      (Step.addAuto ["/src/chapter.css"] "/book" ⟨[], []⟩
        ⟨[(1, "OEBPS/Styles/chapter.css")], [("OEBPS/Styles/chapter.css", 1)]⟩
        1 1 "/src/chapter.css" true "" "\\" (by decide) rfl)
  have hreach : Reachable
      ⟨[(1, "OEBPS/Styles/chapter.css"), (2, "OEBPS/Text/ch1.xhtml")],
        [("OEBPS/Styles/chapter.css", 1), ("OEBPS/Text/ch1.xhtml", 2)]⟩ :=
    Reachable.step h1
      (Step.addExplicit ["/src/ch1.xhtml"] "/book"
        ⟨[(1, "OEBPS/Styles/chapter.css")], [("OEBPS/Styles/chapter.css", 1)]⟩
        ⟨[(1, "OEBPS/Styles/chapter.css"), (2, "OEBPS/Text/ch1.xhtml")],
          [("OEBPS/Styles/chapter.css", 1), ("OEBPS/Text/ch1.xhtml", 2)]⟩
        2 2 "/src/ch1.xhtml" true "" "OEBPS/Text/ch1.xhtml" "\\"
        (by decide) (by decide) rfl)
  exact C1_book_path_unique _ hreach
    (1, "OEBPS/Styles/chapter.css") (by decide)
    (2, "OEBPS/Text/ch1.xhtml") (by decide) (by decide)

end FolderKeeper
